import Mathlib

/-!
Verification of the sf-flow-parser core: a shallow embedding of the
schema-driven normalization engine (`src/lib/helper.ts`), the canonical
ordering engine, the node-graph view (`src/lib/nodes.ts`) and the document
codec front end (`parse`), together with proofs of the specified
properties.

The generic parsed tree is modelled by `Val`, a JSON-like value type:
`null`, strings, numbers, booleans, arrays, and objects (ordered
association lists of string keys, mirroring JavaScript object key order).
JavaScript truthiness is modelled by `truthy`.  Objects obtained from the
XML codec never carry duplicate keys; field update (`setF`) replaces the
first occurrence of a key in place (appending when absent), matching
JavaScript property assignment.
-/

namespace SFFlow

/-- A JavaScript value as produced by the XML codec: the generic tree the
normalization engine walks.  Numbers are modelled as integers (the codec
only produces strings and nested elements for Flow documents; no claim
depends on fractional values). -/
inductive Val where
  | vNull : Val
  | vStr : String → Val
  | vNum : Int → Val
  | vBool : Bool → Val
  | vArr : List Val → Val
  | vObj : List (String × Val) → Val

/-- A JavaScript object: an ordered association list of fields. -/
abbrev Obj := List (String × Val)

/-- JavaScript truthiness: `null`, `""`, `0` and `false` are falsy; every
array and every object is truthy. -/
def truthy : Val → Bool
  | .vNull => false
  | .vStr s => !(s == "")
  | .vNum n => !(n == 0)
  | .vBool b => b
  | .vArr _ => true
  | .vObj _ => true

/-- `Array.isArray`. -/
def isArr : Val → Bool
  | .vArr _ => true
  | _ => false

/-- Is the value a (non-array, non-null) object? -/
def isObjV : Val → Bool
  | .vObj _ => true
  | _ => false

/-- Property read `o[key]` on an object: the first binding of `key`
(JavaScript objects have unique keys; `none` models `undefined`). -/
def lookupF : Obj → String → Option Val
  | [], _ => none
  | (k, v) :: rest, key => if k == key then some v else lookupF rest key

/-- Property write `o[key] = v`: replace the first binding of `key` in
place, or append a new binding (JavaScript insertion-order semantics). -/
def setF : Obj → String → Val → Obj
  | [], key, v => [(key, v)]
  | (k, w) :: rest, key, v =>
    if k == key then (k, v) :: rest else (k, w) :: setF rest key v

/-- Truthiness of `o[key]` (an absent property reads as `undefined`,
which is falsy). -/
def truthyF (o : Obj) (key : String) : Bool :=
  match lookupF o key with
  | some v => truthy v
  | none => false

/-- `ensureArray` from `src/lib/helper.ts`: if `o[p]` is truthy and not an
array, wrap it in a one-element array; otherwise, if `o[p]` is falsy
(absent, null, `""`, `0`, `false`), set it to the empty array; a truthy
array is left alone. -/
def ensureArray (o : Obj) (p : String) : Obj :=
  match lookupF o p with
  | some v =>
    if truthy v && !(isArr v) then setF o p (.vArr [v])
    else if !(truthy v) then setF o p (.vArr [])
    else o
  | none => setF o p (.vArr [])

/-- `ensureArray` lifted to an arbitrary value standing for the container
object.  The source is only ever handed objects here on well-formed
documents; handing it a primitive would raise a strict-mode `TypeError`
at the property assignment, so no result state exists for such inputs and
the embedding leaves non-objects unchanged. -/
def ensureArrayV (v : Val) (p : String) : Val :=
  match v with
  | .vObj o => .vObj (ensureArray o p)
  | _ => v

/-- `FLOW_ARRAY_NODES` from `src/lib/constants.ts`. -/
def FLOW_ARRAY_NODES : List String :=
  ["decisions", "actionCalls", "apexPluginCalls", "assignments",
   "collectionProcessors", "customErrors", "loops", "recordCreates",
   "recordDeletes", "recordLookups", "recordRollbacks", "recordUpdates",
   "screens", "subflows", "transforms", "waits", "orchestratedStages"]

/-- `FLOW_ARRAY_PROPERTIES` from `src/lib/constants.ts`. -/
def FLOW_ARRAY_PROPERTIES : List String :=
  FLOW_ARRAY_NODES ++
  ["choices", "constants", "dynamicChoiceSets", "environments", "formulas",
   "processMetadataValues", "stages", "steps", "textTemplates", "variables"]

/-- `NestedArrayConfig` from `src/lib/types.ts`: the schema-table entry
shape (child fields to force to arrays, nested entries, and an optional
recursive field marker). -/
inductive Config where
  | mk (childArrays : List String) (nestedConfig : List (String × Config))
      (recursiveField : Option String)

/-- The `childArrays` component of a schema-table entry. -/
def Config.childArrays : Config → List String
  | .mk ca _ _ => ca

/-- The `nestedConfig` component of a schema-table entry. -/
def Config.nestedConfig : Config → List (String × Config)
  | .mk _ nc _ => nc

/-- The `recursive` marker of a schema-table entry. -/
def Config.recursiveField : Config → Option String
  | .mk _ _ r => r

/-- `NESTED_ARRAY_CONFIG` from `src/lib/constants.ts`, entry for entry in
declaration order. -/
def NESTED_ARRAY_CONFIG : List (String × Config) :=
  [ ("decisions", .mk ["rules"]
      [("rules", .mk ["conditions"] [] none)] none),
    ("screens", .mk ["fields", "actions", "rules", "triggers"]
      [ ("rules", .mk ["conditions", "ruleActions"] [] none),
        ("triggers", .mk ["handlers"] [] none),
        ("fields", .mk
          ["fields", "choiceReferences", "inputParameters",
           "outputParameters", "dataTypeMappings"] [] (some "fields")) ]
      none),
    ("recordLookups", .mk ["filters", "outputAssignments", "queriedFields"]
      [] none),
    ("recordCreates", .mk ["inputAssignments"] [] none),
    ("recordUpdates", .mk ["filters", "inputAssignments"] [] none),
    ("recordDeletes", .mk ["filters"] [] none),
    ("assignments", .mk ["assignmentItems"] [] none),
    ("actionCalls", .mk
      ["inputParameters", "outputParameters", "dataTypeMappings"] [] none),
    ("apexPluginCalls", .mk ["inputParameters", "outputParameters"] [] none),
    ("subflows", .mk ["inputAssignments", "outputAssignments"] [] none),
    ("waits", .mk ["waitEvents"]
      [("waitEvents", .mk
         ["conditions", "filters", "inputParameters", "outputParameters"]
         [] none)] none),
    ("transforms", .mk ["transformValues"]
      [("transformValues", .mk ["transformValueActions"]
         [("transformValueActions", .mk ["inputParameters"] [] none)]
         none)] none),
    ("orchestratedStages", .mk
      ["stageSteps", "exitConditions", "exitActionInputParameters",
       "exitActionOutputParameters"]
      [("stageSteps", .mk
         ["assignees", "entryConditions", "exitConditions",
          "inputParameters", "outputParameters",
          "entryActionInputParameters", "entryActionOutputParameters",
          "exitActionInputParameters", "exitActionOutputParameters"]
         [] none)] none),
    ("start", .mk ["filters", "scheduledPaths", "capabilityTypes"]
      [("capabilityTypes", .mk ["inputs"] [] none)] none),
    ("dynamicChoiceSets", .mk ["filters", "outputAssignments"] [] none),
    ("collectionProcessors", .mk ["conditions", "mapItems", "sortOptions"]
      [] none),
    ("customErrors", .mk ["customErrorMessages"] [] none) ]

mutual
/-- `processPropertyArrays` from `src/lib/helper.ts`.  The special branch
fires for the singleton `start` property when its value is a truthy
object (`typeof obj[prop] === "object"`; a `null` value is excluded by
the source's truthiness test, and a genuine `start` value is never an
array).  Otherwise the property is forced to an array and each element is
processed.

The source ends the per-item loop with the recursive-field branch: when
`config.recursive` names a present, non-empty field, it builds the
synthetic object `{ [prop]: [{ [config.recursive]: item[config.recursive] }] }`
and passes it to `processNestedArrays`, discarding the result.  That call
iterates only the top-level keys of `NESTED_ARRAY_CONFIG`, and the
synthetic object's single key (`"fields"`, the one property whose entry
carries the marker) is not among them, so the call matches no entry and
mutates nothing (see `processNestedArrays_synthetic_fields`).  The
embedding therefore leaves the item unchanged at that step. -/
def processPropertyArrays (o : Obj) (p : String) (c : Config) : Obj :=
  if p == "start" then
    match lookupF o p with
    | some (.vObj so) =>
      match c with
      | .mk ca nc _ =>
        let so1 := ca.foldl ensureArray so
        let so2 := procNestedObj nc so1
        setF o p (.vObj so2)
    | _ => processGeneral o p c
  else processGeneral o p c
termination_by (sizeOf c, 3, 0)

/-- The general (non-`start`) path of `processPropertyArrays`: force the
property to an array, return if it is empty, otherwise process each
item. -/
def processGeneral (o : Obj) (p : String) (c : Config) : Obj :=
  let o1 := ensureArray o p
  match lookupF o1 p with
  | some (.vArr items) =>
    if items.isEmpty then o1
    else setF o1 p (.vArr (procItems c items))
  | _ => o1
termination_by (sizeOf c, 2, 0)

/-- The `obj[prop].forEach(...)` loop body applied to every item. -/
def procItems (c : Config) (items : List Val) : List Val :=
  match items with
  | [] => []
  | item :: rest => procItem c item :: procItems c rest
termination_by (sizeOf c, 1, sizeOf items)

/-- Per-item processing: force every declared child field to an array,
then recurse into the nested configuration entries.  A primitive item is
left unchanged (the source would raise a strict-mode `TypeError` creating
a property on it, so no result state exists for such inputs). -/
def procItem (c : Config) (item : Val) : Val :=
  match c, item with
  | .mk ca nc _, .vObj io =>
    let io1 := ca.foldl ensureArray io
    let io2 := procNestedObj nc io1
    .vObj io2
  | _, it => it
termination_by (sizeOf c, 0, 0)

/-- The configuration-entry loop shared by `processNestedArrays` and the
`nestedConfig` handling inside `processPropertyArrays`: for each entry in
order, process the property when it is truthy. -/
def procNestedObj : List (String × Config) → Obj → Obj
  | [], io => io
  | (cp, cc) :: rest, io =>
    procNestedObj rest
      (if truthyF io cp then processPropertyArrays io cp cc else io)
termination_by l _ => (sizeOf l, 4, 0)
end

/-- `processNestedArrays` from `src/lib/helper.ts` applied to an object
(the guard returning early for `null` and primitives is immaterial at
object type). -/
def processNestedArrays (o : Obj) : Obj :=
  procNestedObj NESTED_ARRAY_CONFIG o

/-- `ensureArrayProperties` from `src/lib/helper.ts`: force each
`FLOW_ARRAY_PROPERTIES` field of the flow to an array, then process the
nested array configuration. -/
def ensureArrayProperties (o : Obj) : Obj :=
  processNestedArrays (FLOW_ARRAY_PROPERTIES.foldl ensureArray o)

/-! ## Node graph view (`src/lib/nodes.ts`) -/

/-- Property read on an arbitrary value: primitives have no (relevant)
properties, so a read on them yields `undefined`. -/
def getFieldV (v : Val) (k : String) : Option Val :=
  match v with
  | .vObj o => lookupF o k
  | _ => none

/-- `getFlowNodes` from `src/lib/nodes.ts`: the `start` value followed by
the elements of every `FLOW_ARRAY_NODES` collection that is an array, with
falsy entries filtered out (`filter(Boolean)`). -/
def getFlowNodes (o : Obj) : List Val :=
  let startCand : List Val :=
    match lookupF o "start" with
    | some v => [v]
    | none => []
  let collCand : List Val :=
    FLOW_ARRAY_NODES.foldl
      (fun acc p =>
        acc ++ (match lookupF o p with
                | some (.vArr xs) => xs
                | _ => []))
      []
  (startCand ++ collCand).filter truthy

/-- `getConnectors` from `src/lib/nodes.ts`: the five direct slots in
their fixed order, then each rule's, scheduled path's and wait event's
connector, with unset (falsy) entries filtered out at the end
(`filter(Boolean)`). -/
def getConnectors (node : Val) : List Val :=
  let slots : List (Option Val) :=
    [getFieldV node "connector", getFieldV node "defaultConnector",
     getFieldV node "nextValueConnector",
     getFieldV node "noMoreValuesConnector", getFieldV node "faultConnector"]
  let ruleConns : List (Option Val) :=
    match getFieldV node "rules" with
    | some (.vArr rs) => rs.map (fun r => getFieldV r "connector")
    | _ => []
  let pathConns : List (Option Val) :=
    match getFieldV node "scheduledPaths" with
    | some (.vArr ps) => ps.map (fun pth => getFieldV pth "connector")
    | _ => []
  let eventConns : List (Option Val) :=
    match getFieldV node "waitEvents" with
    | some (.vArr ws) => ws.map (fun w => getFieldV w "connector")
    | _ => []
  (((slots ++ ruleConns ++ pathConns ++ eventConns).filterMap id).filter
    truthy)

/-- Does the connector's `targetReference` strictly equal the given name
(JavaScript `===`: a missing or non-string reference never matches)? -/
def targetRefIs (c : Val) (name : String) : Bool :=
  match getFieldV c "targetReference" with
  | some (.vStr s) => s == name
  | _ => false

/-- `findParentFlowNodes` from `src/lib/nodes.ts`: every node with at
least one enumerated connector targeting the child name. -/
def findParentFlowNodes (o : Obj) (childName : String) : List Val :=
  (getFlowNodes o).filter
    (fun nd => (getConnectors nd).any (fun c => targetRefIs c childName))

/-- The in-place mutation `connector.targetReference = target` applied
exactly when the connector currently targets `src`. -/
def rewriteConn (src tgt : String) (c : Val) : Val :=
  if targetRefIs c src then
    match c with
    | .vObj co => .vObj (setF co "targetReference" (.vStr tgt))
    | other => other
  else c

/-- Rewrite the connector carried by a rule / scheduled path / wait
event element. -/
def rewriteCarrier (src tgt : String) (r : Val) : Val :=
  match r with
  | .vObj ro =>
    match lookupF ro "connector" with
    | some c => .vObj (setF ro "connector" (rewriteConn src tgt c))
    | none => .vObj ro
  | other => other

/-- Connector-bearing array fields of a node (`rules`, `scheduledPaths`,
`waitEvents`). -/
def connectorArrayFields : List String :=
  ["rules", "scheduledPaths", "waitEvents"]

/-- Direct connector slots of a node, in the enumeration order of
`getConnectors`. -/
def directConnectorFields : List String :=
  ["connector", "defaultConnector", "nextValueConnector",
   "noMoreValuesConnector", "faultConnector"]

/-- Rewrite one field of a node: a direct connector slot is rewritten,
a connector-bearing array has each element's connector rewritten, every
other field is untouched. -/
def rewriteFieldVal (src tgt : String) (k : String) (v : Val) : Val :=
  if directConnectorFields.contains k then rewriteConn src tgt v
  else if connectorArrayFields.contains k then
    match v with
    | .vArr xs => Val.vArr (xs.map (rewriteCarrier src tgt))
    | other => other
  else v

/-- Rewrite every connector of a node whose target is `src` to target
`tgt`; all other fields are untouched. -/
def rewriteNode (src tgt : String) (nd : Val) : Val :=
  match nd with
  | .vObj fs => .vObj (fs.map (fun kv => (kv.1, rewriteFieldVal src tgt kv.1 kv.2)))
  | other => other

/-- The value of one flow field under a per-node transformation: the
`start` value is transformed, each element of a `FLOW_ARRAY_NODES` array
is transformed, every other field is untouched. -/
def nodePosVal (f : Val → Val) (k : String) (v : Val) : Val :=
  if k == "start" then f v
  else if FLOW_ARRAY_NODES.contains k then
    match v with
    | .vArr xs => Val.vArr (xs.map f)
    | other => other
  else v

/-- Map a function over every node position of the flow: the `start`
value and the elements of every `FLOW_ARRAY_NODES` field holding an
array (the positions enumerated by `getFlowNodes`). -/
def mapNodesObj (f : Val → Val) (o : Obj) : Obj :=
  o.map (fun kv => (kv.1, nodePosVal f kv.1 kv.2))

/-- The per-node effect of reparenting: a parent of `src` (a node with a
connector targeting `src`) has its matching connectors rewritten; any
other node is untouched. -/
def condRewrite (src tgt : String) (nd : Val) : Val :=
  if (getConnectors nd).any (fun c => targetRefIs c src) then
    rewriteNode src tgt nd
  else nd

/-- `reparentNode` from `src/lib/nodes.ts`: for every parent of `src`
(every node with a connector targeting `src`), mutate each of its
connectors whose `targetReference` equals `src` to target `tgt`.  The
source first collects the parent node references via
`findParentFlowNodes` and then mutates them in place; since the collected
references are exactly the flow's own node values, this is the same as
rewriting each node position whose node is a parent. -/
def reparentNode (o : Obj) (src tgt : String) : Obj :=
  mapNodesObj (condRewrite src tgt) o

/-! ## Canonical ordering (`src/lib/helper.ts`) -/

/-- The sort key `a.name || ""`: a falsy `name` (absent, null, empty
string) reads as the empty string.  A truthy non-string `name` would make
the source's `localeCompare` call fail with a `TypeError`, so no result
exists for such inputs; the sortedness and stability theorem below
restricts names to strings via `nameOk`. -/
def nameOf (v : Val) : String :=
  match getFieldV v "name" with
  | some (.vStr s) => s
  | _ => ""

/-- Is the value a string? -/
def isStr : Val → Bool
  | .vStr _ => true
  | _ => false

/-- The element's `name`, if present and truthy, is a string (so the
source's `localeCompare` is actually defined on it). -/
def nameOk (v : Val) : Bool :=
  match getFieldV v "name" with
  | some nv => !(truthy nv) || isStr nv
  | none => true

/-- Insert an element into an already sorted list, after every element
that compares strictly below it and before the first element comparing
greater-or-equal.  Inserting each earlier input element before the
later, equal-comparing ones realizes the stable sort mandated for
`Array.prototype.sort`: for a consistent comparator the stable sorted
arrangement is unique, so any stable algorithm is an exact model. -/
def insertNamed (cmp : String → String → Int) (x : Val) :
    List Val → List Val
  | [] => [x]
  | y :: ys =>
    if cmp (nameOf y) (nameOf x) < 0 then y :: insertNamed cmp x ys
    else x :: y :: ys

/-- Stable sort by `name` under the comparator `cmp` (the source's
`(a, b) => (a.name || "").localeCompare(b.name || "")`; the locale-aware
comparison itself is external, so it is a parameter). -/
def sortNamed (cmp : String → String → Int) : List Val → List Val
  | [] => []
  | x :: xs => insertNamed cmp x (sortNamed cmp xs)

/-- `sortByName` from `src/lib/helper.ts` on an arbitrary value: `null`,
`undefined` (modelled by absence handled at call sites) and non-arrays
are returned unchanged; an array is sorted into a fresh array. -/
def sortByName (cmp : String → String → Int) (v : Val) : Val :=
  match v with
  | .vArr xs => .vArr (sortNamed cmp xs)
  | other => other

/-- `sortFlowArrays` from `src/lib/helper.ts`: on a falsy or non-object
value return it unchanged; otherwise copy the flow and sort each
`FLOW_ARRAY_PROPERTIES` field that holds an array.  No other field — in
particular no nested array such as a decision's `rules` — is touched:
the source never consults `NESTED_SORT_CONFIG`. -/
def sortFlowArrays (cmp : String → String → Int) (v : Val) : Val :=
  match v with
  | .vObj fs =>
    .vObj (FLOW_ARRAY_PROPERTIES.foldl
      (fun acc p =>
        match lookupF acc p with
        | some (.vArr xs) => setF acc p (.vArr (sortNamed cmp xs))
        | _ => acc)
      fs)
  | other => other

/-! ## Document codec front end (`parse`) -/

/-- The distinct malformed-root message of `parse`. -/
def flowElementMissingMsg : String := "XML does not contain a Flow element"

/-- The cause reported when the parsed `Flow` entry is a truthy
primitive: normalization then fails creating a property on it.  The
engine-dependent wording is irrelevant to every claim; only the
`Failed to parse XML:` wrapping matters.  The embedding also totalizes
a truthy array `Flow` entry into this failure: such an entry would
require several top-level `Flow` elements, which is not a well-formed
XML document, so the codec never produces it. -/
def strictModeCause : String :=
  "Cannot create property on a primitive Flow value"

/-- The `Flow` entry of the codec's output tree. -/
def flowFieldOf (parsed : Val) : Option Val :=
  match parsed with
  | .vObj po => lookupF po "Flow"
  | _ => none

/-- The cause reported when the parsed tree is `null`: the root read
`parsed["Flow"]` then throws a `TypeError` inside the `try`.  The
engine-dependent wording is irrelevant to every claim; only that it
differs from the distinct malformed-root message matters. -/
def nullReadCause : String :=
  "Cannot read properties of null (reading Flow)"

/-- `parse` from `src/lib/flow.ts`, abstracted over the external codec's
outcome (`.error e` models `xmlLib.parse` throwing with message `e`,
`.ok parsed` models it returning the generic tree).  The `catch` block
re-checks `error.message` against the distinct malformed-root message
for every caught error: an error carrying exactly that message — the
one thrown by the root check, but also any codec failure that happens
to carry it — is re-thrown verbatim, every other failure is wrapped
with its cause.  A `null` parsed tree makes the root read itself throw
a `TypeError`, which is wrapped like any codec failure; on every other
rootless tree (a primitive, an array, or an object without a truthy
`Flow` entry) the property read yields `undefined` and the distinct
error is raised.  Otherwise the flow is normalized in place and
returned. -/
def parse (codec : Except String Val) : Except String Obj :=
  match codec with
  | .error e =>
    if e == flowElementMissingMsg then .error e
    else .error ("Failed to parse XML: " ++ e)
  | .ok parsed =>
    match parsed with
    | .vNull => .error ("Failed to parse XML: " ++ nullReadCause)
    | _ =>
      match flowFieldOf parsed with
      | some fv =>
        if truthy fv then
          match fv with
          | .vObj fo => .ok (ensureArrayProperties fo)
          | _ => .error ("Failed to parse XML: " ++ strictModeCause)
        else .error flowElementMissingMsg
      | none => .error flowElementMissingMsg

/-! ## Basic lemmas about the object primitives -/

theorem lookupF_setF_self (o : Obj) (k : String) (v : Val) :
    lookupF (setF o k v) k = some v := by
  induction o with
  | nil => simp [setF, lookupF]
  | cons kv rest ih =>
    by_cases h : kv.1 == k
    · cases kv; simp_all [setF, lookupF]
    · cases kv; simp_all [setF, lookupF]

theorem lookupF_setF_ne (o : Obj) (k q : String) (v : Val)
    (h : (k == q) = false) : lookupF (setF o k v) q = lookupF o q := by
  induction o with
  | nil => simp [setF, lookupF, h]
  | cons kv rest ih =>
    cases kv with
    | mk k1 v1 =>
      by_cases hk : (k1 == k) = true
      · have hk1 : k1 = k := by simpa using hk
        subst hk1
        simp [setF, lookupF, h]
      · simp only [setF, lookupF, hk, Bool.false_eq_true, if_false,
          if_neg]
        by_cases hq : (k1 == q) = true
        · simp [lookupF, hq]
        · simp [lookupF, hq, ih]

theorem setF_lookup_self (o : Obj) (k : String) (v : Val)
    (h : lookupF o k = some v) : setF o k v = o := by
  induction o with
  | nil => simp [lookupF] at h
  | cons kv rest ih =>
    cases kv with
    | mk k1 v1 =>
      by_cases hk : k1 == k
      · simp_all [setF, lookupF]
      · simp_all [setF, lookupF]

theorem lookupF_ensureArray_self (o : Obj) (p : String) :
    ∃ xs, lookupF (ensureArray o p) p = some (.vArr xs) := by
  unfold ensureArray
  match h : lookupF o p with
  | none => exact ⟨[], by simp [lookupF_setF_self]⟩
  | some v =>
    cases hT : truthy v with
    | false => exact ⟨[], by simp [hT, lookupF_setF_self]⟩
    | true =>
      cases hA : isArr v with
      | false => exact ⟨[v], by simp [hT, hA, lookupF_setF_self]⟩
      | true =>
        match v, hA with
        | .vArr xs, _ => exact ⟨xs, by simp [truthy, isArr, h]⟩

theorem ensureArray_of_arr (o : Obj) (p : String) (xs : List Val)
    (h : lookupF o p = some (.vArr xs)) : ensureArray o p = o := by
  simp [ensureArray, h, truthy, isArr]

theorem lookupF_ensureArray_ne (o : Obj) (p q : String)
    (h : (p == q) = false) :
    lookupF (ensureArray o p) q = lookupF o q := by
  unfold ensureArray
  match h2 : lookupF o p with
  | none => simp [lookupF_setF_ne _ _ _ _ h]
  | some v =>
    cases hT : truthy v with
    | false => simp [hT, lookupF_setF_ne _ _ _ _ h]
    | true =>
      cases hA : isArr v with
      | false => simp [hT, hA, lookupF_setF_ne _ _ _ _ h]
      | true => simp [hT, hA]

/-! ## C9: `ensureArray` discards falsy values and wraps truthy ones -/

/-- C9: for every object and field name, `ensureArray` replaces any falsy
present value — and the empty string, `0` and `false` are falsy just like
`null` — with the empty array, discarding the value; an absent field also
becomes the empty array; and a truthy non-array value is wrapped in a
one-element array. -/
theorem ensureArray_falsy_empty_truthy_wraps (o : Obj) (p : String) :
    (∀ v, lookupF o p = some v → truthy v = false →
      ensureArray o p = setF o p (.vArr [])) ∧
    (lookupF o p = none → ensureArray o p = setF o p (.vArr [])) ∧
    (∀ v, lookupF o p = some v → truthy v = true → isArr v = false →
      ensureArray o p = setF o p (.vArr [v])) ∧
    (truthy (.vStr "") = false ∧ truthy (.vNum 0) = false ∧
      truthy (.vBool false) = false ∧ truthy .vNull = false) := by
  refine ⟨?_, ?_, ?_, by decide⟩
  · intro v hv ht; simp [ensureArray, hv, ht]
  · intro hv; simp [ensureArray, hv]
  · intro v hv ht ha; simp [ensureArray, hv, ht, ha]

/-- Witness for C9 at concrete inputs: an empty string is discarded into
an empty array, and a truthy non-array string is wrapped. -/
theorem ensureArray_falsy_empty_truthy_wraps_witness :
    ensureArray [("x", Val.vStr "")] "x" = [("x", Val.vArr [])] ∧
    ensureArray [("y", Val.vStr "go")] "y" =
      [("y", Val.vArr [Val.vStr "go"])] := by
  constructor
  · have h := (ensureArray_falsy_empty_truthy_wraps
      [("x", Val.vStr "")] "x").1 (Val.vStr "") (by rfl) (by rfl)
    simpa [setF] using h
  · have h := (ensureArray_falsy_empty_truthy_wraps
      [("y", Val.vStr "go")] "y").2.2.1 (Val.vStr "go") (by rfl) (by rfl)
      (by rfl)
    simpa [setF] using h

/-! ## C10: sorting is total on degenerate input -/

/-- C10: `sortByName` returns `null` and non-array values (strings,
numbers, booleans, bare objects) unchanged, and `sortFlowArrays` returns
a `null` flow unchanged; both are total functions (JavaScript `undefined`
coincides with `null` under the source's falsiness guards and is modelled
by it). -/
theorem sort_total_on_degenerate_input :
    (∀ cmp, sortByName cmp Val.vNull = Val.vNull) ∧
    (∀ cmp s, sortByName cmp (Val.vStr s) = Val.vStr s) ∧
    (∀ cmp n, sortByName cmp (Val.vNum n) = Val.vNum n) ∧
    (∀ cmp b, sortByName cmp (Val.vBool b) = Val.vBool b) ∧
    (∀ cmp o, sortByName cmp (Val.vObj o) = Val.vObj o) ∧
    (∀ cmp, sortFlowArrays cmp Val.vNull = Val.vNull) := by
  refine ⟨fun _ => rfl, fun _ _ => rfl, fun _ _ => rfl, fun _ _ => rfl,
    fun _ _ => rfl, fun _ => rfl⟩

/-! ## C4: `sortFlowArrays` never sorts the nested allow-list -/

/-- A flow with a single decision whose `rules` are out of name order
(`B` before `A`). -/
def c4Flow : Val :=
  .vObj [("decisions", .vArr [
    .vObj [("name", .vStr "D"),
           ("rules", .vArr [
             .vObj [("name", .vStr "B")],
             .vObj [("name", .vStr "A")] ])] ])]

/-- C4 (code bug): for every comparator, `sortFlowArrays` returns
`c4Flow` unchanged — the decision's `rules` stay in the unsorted order
`B, A` — because the source never applies `NESTED_SORT_CONFIG`; the
config is declared, documented as the nested-sort allow-list, and
exported, but dead. -/
theorem sortFlowArrays_ignores_nested_allow_list :
    ∀ cmp, sortFlowArrays cmp c4Flow = c4Flow := by
  intro cmp
  simp [c4Flow, sortFlowArrays, FLOW_ARRAY_PROPERTIES, FLOW_ARRAY_NODES,
    lookupF, setF, sortNamed, insertNamed]

/-! ## C6: connector enumeration order -/

/-- The present, set entries of a list of optional connector slots, in
slot order: unset (`undefined`) and falsy slots are dropped, never
null-padded.  Spec-side notion for the enumeration-order claim. -/
def presentTruthy (l : List (Option Val)) : List Val :=
  (l.filterMap id).filter truthy

/-- The optional connector carried by each element of the node's `field`
array, in element order.  Spec-side notion for the enumeration-order
claim. -/
def carrierRaw (node : Val) (field : String) : List (Option Val) :=
  match getFieldV node field with
  | some (.vArr xs) => xs.map (fun x => getFieldV x "connector")
  | _ => []

/-- C6: `getConnectors` returns exactly the fixed order required by the
spec — direct, default, next-value, no-more-values, fault connector, then
each rule's connector in rule order, then each scheduled path's connector
in path order, then each wait event's connector in event order — with
unset slots omitted entirely (no placeholder / null entries). -/
theorem getConnectors_fixed_enumeration_order (node : Val) :
    getConnectors node =
      presentTruthy (directConnectorFields.map (fun k => getFieldV node k))
        ++ presentTruthy (carrierRaw node "rules")
        ++ presentTruthy (carrierRaw node "scheduledPaths")
        ++ presentTruthy (carrierRaw node "waitEvents") := by
  simp only [getConnectors, presentTruthy, carrierRaw,
    directConnectorFields, List.map_cons, List.map_nil,
    List.filterMap_append, List.filter_append]

/-! ## C8: parse fails distinctly without a Flow root -/

/-- Does the codec's output tree carry a (truthy) `Flow` root entry? -/
def hasFlowRoot (t : Val) : Bool :=
  match flowFieldOf t with
  | some fv => truthy fv
  | none => false

/-- C8 counterexample: the two error paths the claim merges are
distinct in the program.  A codec failure whose message happens to equal
the distinct malformed-root message is surfaced verbatim by the
`catch` re-check — not wrapped, so not every other codec failure is
wrapped.  A `null` parsed tree lacks the `Flow` root, yet fails with a
wrapped `TypeError` — not the distinct message, so the distinct error is
not raised exactly when the root is missing. -/
theorem parse_collapsed_error_paths :
    parse (.error flowElementMissingMsg) = .error flowElementMissingMsg ∧
    parse (.ok .vNull) = .error ("Failed to parse XML: " ++ nullReadCause) ∧
    hasFlowRoot .vNull = false ∧
    ("Failed to parse XML: " ++ nullReadCause) ≠ flowElementMissingMsg := by
  refine ⟨by simp [parse], rfl, rfl, by decide⟩

/-- C8 (amended): on every non-`null` tree, `parse` fails with the
distinct malformed-root message exactly when the tree lacks a truthy
`Flow` root entry; a `null` tree fails with the wrapped property-read
`TypeError`; a failure of the external codec is wrapped, preserving the
underlying cause verbatim inside the message, unless its message equals
the distinct one, in which case it is re-thrown verbatim; the
malformed-root message is never a wrapped one; and `parse` never
succeeds on a tree without a `Flow` root. -/
theorem parse_root_characterization :
    (∀ t, t ≠ .vNull →
      (parse (.ok t) = .error flowElementMissingMsg ↔
        hasFlowRoot t = false)) ∧
    parse (.ok .vNull) = .error ("Failed to parse XML: " ++ nullReadCause) ∧
    (∀ e, parse (.error e) =
      if e == flowElementMissingMsg then .error e
      else .error ("Failed to parse XML: " ++ e)) ∧
    (∀ e, flowElementMissingMsg ≠ "Failed to parse XML: " ++ e) ∧
    (∀ t res, parse (.ok t) = .ok res → hasFlowRoot t = true) := by
  have hne : ∀ e, flowElementMissingMsg ≠ "Failed to parse XML: " ++ e := by
    intro e h
    have hd := congrArg String.data h
    rw [String.data_append] at hd
    have : flowElementMissingMsg.data.head? =
        (("Failed to parse XML: ".data) ++ e.data).head? := by rw [hd]
    simp [flowElementMissingMsg] at this
  refine ⟨?_, rfl, fun e => rfl, hne, ?_⟩
  · intro t ht
    cases t with
    | vNull => exact absurd rfl ht
    | vStr s => simp [parse, hasFlowRoot, flowFieldOf]
    | vNum n => simp [parse, hasFlowRoot, flowFieldOf]
    | vBool b => simp [parse, hasFlowRoot, flowFieldOf]
    | vArr xs => simp [parse, hasFlowRoot, flowFieldOf]
    | vObj po =>
      cases hf : lookupF po "Flow" with
      | none => simp [parse, hasFlowRoot, flowFieldOf, hf]
      | some fv =>
        cases hT : truthy fv with
        | false => simp [parse, hasFlowRoot, flowFieldOf, hf, hT]
        | true =>
          cases fv with
          | vObj fo => simp [parse, hasFlowRoot, flowFieldOf, hf, hT]
          | vNull => simp [truthy] at hT
          | vStr s =>
            simp [parse, hasFlowRoot, flowFieldOf, hf, hT,
              (hne strictModeCause).symm]
          | vNum n =>
            simp [parse, hasFlowRoot, flowFieldOf, hf, hT,
              (hne strictModeCause).symm]
          | vBool b =>
            simp [parse, hasFlowRoot, flowFieldOf, hf, hT,
              (hne strictModeCause).symm]
          | vArr ys =>
            simp [parse, hasFlowRoot, flowFieldOf, hf, hT,
              (hne strictModeCause).symm]
  · intro t res h
    cases t with
    | vNull => simp [parse] at h
    | vStr s => simp [parse, flowFieldOf] at h
    | vNum n => simp [parse, flowFieldOf] at h
    | vBool b => simp [parse, flowFieldOf] at h
    | vArr xs => simp [parse, flowFieldOf] at h
    | vObj po =>
      simp only [parse, flowFieldOf] at h
      cases hf : lookupF po "Flow" with
      | none => rw [hf] at h; simp at h
      | some fv =>
        rw [hf] at h
        cases hT : truthy fv with
        | false => simp [hT] at h
        | true => simp [hasFlowRoot, flowFieldOf, hf, hT]

/-- Witness for C8 (amended) at concrete inputs: a non-`null` tree
without a `Flow` entry fails with the distinct message, a codec failure
with an ordinary cause is wrapped, and `parse` succeeding implies the
root was present. -/
theorem parse_root_characterization_witness :
    (Val.vObj [("NotFlow", Val.vNum 1)] ≠ Val.vNull ∧
      parse (.ok (Val.vObj [("NotFlow", Val.vNum 1)])) =
        .error flowElementMissingMsg) ∧
    parse (.error "boom") = .error ("Failed to parse XML: boom") ∧
    hasFlowRoot (Val.vObj [("Flow", Val.vObj [])]) = true := by
  refine ⟨⟨by simp, (parse_root_characterization.1 _ (by simp)).mpr (by rfl)⟩,
    ?_, parse_root_characterization.2.2.2.2 (Val.vObj [("Flow", Val.vObj [])])
      (ensureArrayProperties []) (by rfl)⟩
  have h := parse_root_characterization.2.2.1 "boom"
  simpa using h

/-! ## C5: sorting by name is ordered and stable -/

/-- The adjacent-pair ordering used by the sort: the comparator is
non-positive on the two elements' sort keys. -/
def nameLe (cmp : String → String → Int) (a b : Val) : Prop :=
  cmp (nameOf a) (nameOf b) ≤ 0

theorem insertNamed_head (cmp : String → String → Int) (x : Val)
    (l : List Val) (z : Val)
    (h : (insertNamed cmp x l).head? = some z) :
    z = x ∨ l.head? = some z := by
  cases l with
  | nil =>
    simp only [insertNamed, List.head?] at h
    exact Or.inl (Option.some.inj h).symm
  | cons y ys =>
    simp only [insertNamed] at h
    by_cases hc : cmp (nameOf y) (nameOf x) < 0
    · rw [if_pos hc] at h
      simp only [List.head?] at h
      exact Or.inr (by simp [List.head?, h])
    · rw [if_neg hc] at h
      simp only [List.head?] at h
      exact Or.inl (Option.some.inj h).symm

theorem chain'_insertNamed (cmp : String → String → Int)
    (hanti : ∀ a b, 0 ≤ cmp a b → cmp b a ≤ 0) (x : Val) :
    ∀ l : List Val, List.Chain' (nameLe cmp) l →
      List.Chain' (nameLe cmp) (insertNamed cmp x l)
  | [], _ => List.chain'_singleton x
  | y :: ys, hl => by
    by_cases hc : cmp (nameOf y) (nameOf x) < 0
    · simp only [insertNamed, if_pos hc]
      have htail := chain'_insertNamed cmp hanti x ys hl.tail
      refine List.chain'_cons'.mpr ⟨?_, htail⟩
      intro z hz
      rcases insertNamed_head cmp x ys z hz with hzx | hzy
      · subst hzx; exact le_of_lt hc
      · exact (List.chain'_cons'.mp hl).1 z hzy
    · simp only [insertNamed, if_neg hc]
      push_neg at hc
      exact List.chain'_cons'.mpr
        ⟨fun z hz => by
          simp only [List.head?] at hz
          rw [← Option.some.inj hz]
          exact hanti _ _ hc, hl⟩

theorem chain'_sortNamed (cmp : String → String → Int)
    (hanti : ∀ a b, 0 ≤ cmp a b → cmp b a ≤ 0) :
    ∀ l : List Val, List.Chain' (nameLe cmp) (sortNamed cmp l)
  | [] => List.chain'_nil
  | x :: xs =>
    chain'_insertNamed cmp hanti x (sortNamed cmp xs)
      (chain'_sortNamed cmp hanti xs)

theorem mem_insertNamed (cmp : String → String → Int) (x a : Val) :
    ∀ l : List Val, a ∈ insertNamed cmp x l ↔ a = x ∨ a ∈ l
  | [] => by simp [insertNamed]
  | y :: ys => by
    simp only [insertNamed]
    by_cases hc : cmp (nameOf y) (nameOf x) < 0
    · rw [if_pos hc]
      simp only [List.mem_cons, mem_insertNamed cmp x a ys]
      try tauto
    · rw [if_neg hc]
      simp only [List.mem_cons]
      try tauto

theorem mem_sortNamed (cmp : String → String → Int) (a : Val) :
    ∀ l : List Val, a ∈ sortNamed cmp l ↔ a ∈ l
  | [] => Iff.rfl
  | x :: xs => by
    simp only [sortNamed, mem_insertNamed, mem_sortNamed cmp a xs,
      List.mem_cons]

theorem filter_insertNamed_neg (cmp : String → String → Int)
    (p : Val → Bool) (x : Val) (hx : p x = false) :
    ∀ l : List Val, (insertNamed cmp x l).filter p = l.filter p
  | [] => by simp [insertNamed, List.filter, hx]
  | y :: ys => by
    simp only [insertNamed]
    by_cases hc : cmp (nameOf y) (nameOf x) < 0
    · rw [if_pos hc]
      simp only [List.filter]
      rw [filter_insertNamed_neg cmp p x hx ys]
    · rw [if_neg hc]
      simp [List.filter, hx]

theorem filter_insertNamed_pos (cmp : String → String → Int)
    (p : Val → Bool) (x : Val) (hx : p x = true) :
    ∀ l : List Val,
      (∀ z ∈ l, p z = true → ¬ (cmp (nameOf z) (nameOf x) < 0)) →
      (insertNamed cmp x l).filter p = x :: l.filter p
  | [], _ => by simp [insertNamed, List.filter, hx]
  | y :: ys, hcomp => by
    simp only [insertNamed]
    by_cases hc : cmp (nameOf y) (nameOf x) < 0
    · rw [if_pos hc]
      have hy : p y = false := by
        cases hpy : p y with
        | false => rfl
        | true => exact absurd hc (hcomp y (by simp) hpy)
      simp only [List.filter, hy]
      exact filter_insertNamed_pos cmp p x hx ys
        (fun z hz hpz => hcomp z (by simp [hz]) hpz)
    · rw [if_neg hc]
      simp [List.filter, hx]

theorem filter_sortNamed (cmp : String → String → Int) (p : Val → Bool) :
    ∀ l : List Val,
      (∀ v ∈ l, p v = true → ∀ w ∈ l, p w = true →
        cmp (nameOf v) (nameOf w) = 0) →
      (sortNamed cmp l).filter p = l.filter p
  | [], _ => rfl
  | x :: xs, hequiv => by
    simp only [sortNamed]
    have hxs : (sortNamed cmp xs).filter p = xs.filter p :=
      filter_sortNamed cmp p xs
        (fun v hv hpv w hw hpw =>
          hequiv v (by simp [hv]) hpv w (by simp [hw]) hpw)
    cases hx : p x with
    | false =>
      rw [filter_insertNamed_neg cmp p x hx, hxs]
      simp [List.filter, hx]
    | true =>
      rw [filter_insertNamed_pos cmp p x hx _
        (fun z hz hpz => by
          have := hequiv z (by simp [(mem_sortNamed cmp z xs).mp hz]) hpz
            x (by simp) hx
          omega),
        hxs]
      simp [List.filter, hx]

/-- C5: with any comparator that is a total preorder in the sense of a
JavaScript comparator (transitive on non-positive results, and
sign-antisymmetric), `sortByName` sorts an array so that every adjacent
pair compares non-positively on the keys `a.name || ""`; a missing,
null, empty-string or otherwise falsy name sorts as the empty string;
the sort is stable (any set of pairwise equal-comparing elements keeps
its relative input order); and when every non-empty key compares
strictly after the empty key, nameless elements all come before named
ones.  The `nameOk` hypothesis restricts names to strings or falsy
values, the inputs on which the source's `localeCompare` call is
defined. -/
theorem sortByName_sorted_and_stable (cmp : String → String → Int)
    (xs : List Val)
    (htrans : ∀ a b c, cmp a b ≤ 0 → cmp b c ≤ 0 → cmp a c ≤ 0)
    (hanti : ∀ a b, 0 ≤ cmp a b → cmp b a ≤ 0)
    (hnames : ∀ v ∈ xs, nameOk v = true) :
    sortByName cmp (.vArr xs) = .vArr (sortNamed cmp xs) ∧
    List.Chain' (nameLe cmp) (sortNamed cmp xs) ∧
    (∀ v, getFieldV v "name" = none ∨ getFieldV v "name" = some .vNull ∨
      getFieldV v "name" = some (.vStr "") ∨
      getFieldV v "name" = some (.vNum 0) ∨
      getFieldV v "name" = some (.vBool false) → nameOf v = "") ∧
    (∀ p : Val → Bool,
      (∀ v ∈ xs, p v = true → ∀ w ∈ xs, p w = true →
        cmp (nameOf v) (nameOf w) = 0) →
      (sortNamed cmp xs).filter p = xs.filter p) ∧
    ((∀ s, s ≠ "" → 0 < cmp s "") →
      List.Pairwise (fun a b => nameOf b = "" → nameOf a = "")
        (sortNamed cmp xs)) := by
  refine ⟨rfl, chain'_sortNamed cmp hanti xs, ?_,
    fun p h => filter_sortNamed cmp p xs h, ?_⟩
  · intro v hv
    rcases hv with h | h | h | h | h <;> simp [nameOf, h]
  · intro hne
    have hp : List.Pairwise (nameLe cmp) (sortNamed cmp xs) :=
      (@List.chain'_iff_pairwise Val (nameLe cmp)
        ⟨fun a b c hab hbc => htrans _ _ _ hab hbc⟩
        (sortNamed cmp xs)).mp (chain'_sortNamed cmp hanti xs)
    refine hp.imp ?_
    intro a b hab hb
    by_contra hNa
    simp only [nameLe] at hab
    rw [hb] at hab
    exact absurd hab (by have := hne (nameOf a) hNa; omega)

/-- A concrete code-point comparator on character lists, standing in for
a fixed locale's collation when instantiating the sort theorems. -/
def cmpChars : List Char → List Char → Int
  | [], [] => 0
  | [], _ :: _ => -1
  | _ :: _, [] => 1
  | c :: cs, d :: ds =>
    if c.toNat < d.toNat then -1
    else if d.toNat < c.toNat then 1
    else cmpChars cs ds

/-- The code-point comparator on strings. -/
def cmpDefault (a b : String) : Int := cmpChars a.data b.data

theorem cmpChars_anti : ∀ a b : List Char,
    0 ≤ cmpChars a b → cmpChars b a ≤ 0
  | [], [] => by simp [cmpChars]
  | [], _ :: _ => by intro h; simp [cmpChars] at h
  | _ :: _, [] => by intro _; simp [cmpChars]
  | c :: cs, d :: ds => by
    intro h
    simp only [cmpChars] at h ⊢
    by_cases h1 : c.toNat < d.toNat
    · rw [if_pos h1] at h; omega
    · rw [if_neg h1] at h
      by_cases h2 : d.toNat < c.toNat
      · rw [if_pos h2]; omega
      · rw [if_neg h2] at h
        rw [if_neg h2, if_neg h1]
        exact cmpChars_anti cs ds h

theorem cmpChars_trans : ∀ a b c : List Char,
    cmpChars a b ≤ 0 → cmpChars b c ≤ 0 → cmpChars a c ≤ 0
  | [], _, c => by intro _ _; cases c <;> simp [cmpChars]
  | _ :: _, [], _ => by intro h _; simp [cmpChars] at h
  | _ :: _, _ :: _, [] => by intro _ h; simp [cmpChars] at h
  | a :: as, b :: bs, c :: cs => by
    intro h1 h2
    simp only [cmpChars] at h1 h2 ⊢
    rcases Nat.lt_trichotomy a.toNat b.toNat with hab | hab | hab
    · rcases Nat.lt_trichotomy b.toNat c.toNat with hbc | hbc | hbc
      · rw [if_pos (by omega : a.toNat < c.toNat)]; omega
      · rw [if_pos (by omega : a.toNat < c.toNat)]; omega
      · rw [if_neg (by omega), if_pos hbc] at h2; omega
    · rw [if_neg (by omega), if_neg (by omega)] at h1
      rcases Nat.lt_trichotomy b.toNat c.toNat with hbc | hbc | hbc
      · rw [if_pos (by omega : a.toNat < c.toNat)]; omega
      · rw [if_neg (by omega : ¬ a.toNat < c.toNat),
          if_neg (by omega : ¬ c.toNat < a.toNat)]
        rw [if_neg (by omega), if_neg (by omega)] at h2
        exact cmpChars_trans as bs cs h1 h2
      · rw [if_neg (by omega), if_pos hbc] at h2; omega
    · rw [if_neg (by omega), if_pos hab] at h1; omega

theorem cmpChars_pos_empty : ∀ a : List Char, a ≠ [] → 0 < cmpChars a []
  | [], h => absurd rfl h
  | _ :: _, _ => by simp [cmpChars]

theorem cmpDefault_trans (a b c : String) :
    cmpDefault a b ≤ 0 → cmpDefault b c ≤ 0 → cmpDefault a c ≤ 0 :=
  cmpChars_trans a.data b.data c.data

theorem cmpDefault_anti (a b : String) :
    0 ≤ cmpDefault a b → cmpDefault b a ≤ 0 :=
  cmpChars_anti a.data b.data

theorem cmpDefault_pos_empty (s : String) (h : s ≠ "") :
    0 < cmpDefault s "" := by
  apply cmpChars_pos_empty
  intro hd
  exact h (by cases s; simp_all)

/-- A concrete array exercising the sort: a named element, two elements
tied on the name `a` (ids 2 and 4, in that input order), and a nameless
element. -/
def c5List : List Val :=
  [ .vObj [("name", .vStr "b"), ("id", .vNum 1)],
    .vObj [("name", .vStr "a"), ("id", .vNum 2)],
    .vObj [("id", .vNum 3)],
    .vObj [("name", .vStr "a"), ("id", .vNum 4)] ]

/-- Witness for C5 at the concrete comparator and array. -/
theorem sortByName_sorted_and_stable_witness :
    sortByName cmpDefault (.vArr c5List) =
      .vArr (sortNamed cmpDefault c5List) ∧
    List.Chain' (nameLe cmpDefault) (sortNamed cmpDefault c5List) ∧
    (∀ v, getFieldV v "name" = none ∨ getFieldV v "name" = some .vNull ∨
      getFieldV v "name" = some (.vStr "") ∨
      getFieldV v "name" = some (.vNum 0) ∨
      getFieldV v "name" = some (.vBool false) → nameOf v = "") ∧
    (∀ p : Val → Bool,
      (∀ v ∈ c5List, p v = true → ∀ w ∈ c5List, p w = true →
        cmpDefault (nameOf v) (nameOf w) = 0) →
      (sortNamed cmpDefault c5List).filter p = c5List.filter p) ∧
    ((∀ s, s ≠ "" → 0 < cmpDefault s "") →
      List.Pairwise (fun a b => nameOf b = "" → nameOf a = "")
        (sortNamed cmpDefault c5List)) :=
  sortByName_sorted_and_stable cmpDefault c5List cmpDefault_trans
    cmpDefault_anti (by decide)

/-! ## C7: reparenting rewrites exactly the connectors targeting source -/

theorem lookupF_map_vals (g : String → Val → Val) :
    ∀ (o : Obj) (k : String),
      lookupF (o.map (fun kv => (kv.1, g kv.1 kv.2))) k =
        (lookupF o k).map (g k)
  | [], _ => rfl
  | (k1, v1) :: rest, k => by
    by_cases h : (k1 == k) = true
    · have hk : k1 = k := by simpa using h
      subst hk
      simp [lookupF]
    · simp [lookupF, h, lookupF_map_vals g rest k]

theorem truthy_rewriteConn (s t : String) (c : Val) :
    truthy (rewriteConn s t c) = truthy c := by
  unfold rewriteConn
  by_cases h : targetRefIs c s = true
  · rw [if_pos h]
    cases c with
    | vObj co => simp [truthy]
    | vNull => simp [targetRefIs, getFieldV] at h
    | vStr _ => simp [targetRefIs, getFieldV] at h
    | vNum _ => simp [targetRefIs, getFieldV] at h
    | vBool _ => simp [targetRefIs, getFieldV] at h
    | vArr _ => simp [targetRefIs, getFieldV] at h
  · rw [if_neg h]

theorem rewriteConn_not_target (s t : String) (c : Val)
    (h : targetRefIs c s = false) : rewriteConn s t c = c := by
  simp [rewriteConn, h]

theorem targetRef_rewriteConn (s t : String) (c : Val)
    (h : targetRefIs c s = true) :
    getFieldV (rewriteConn s t c) "targetReference" =
      some (.vStr t) := by
  unfold rewriteConn
  rw [if_pos h]
  cases c with
  | vObj co => simp [getFieldV, lookupF_setF_self]
  | vNull => simp [targetRefIs, getFieldV] at h
  | vStr _ => simp [targetRefIs, getFieldV] at h
  | vNum _ => simp [targetRefIs, getFieldV] at h
  | vBool _ => simp [targetRefIs, getFieldV] at h
  | vArr _ => simp [targetRefIs, getFieldV] at h

theorem getFieldV_rewriteCarrier (s t : String) (r : Val) :
    getFieldV (rewriteCarrier s t r) "connector" =
      (getFieldV r "connector").map (rewriteConn s t) := by
  cases r with
  | vObj ro =>
    unfold rewriteCarrier
    cases h : lookupF ro "connector" with
    | none => simp [getFieldV, h]
    | some c => simp [getFieldV, h, lookupF_setF_self]
  | vNull => rfl
  | vStr _ => rfl
  | vNum _ => rfl
  | vBool _ => rfl
  | vArr _ => rfl

theorem filterMap_optionMap (f : Val → Val) :
    ∀ l : List (Option Val),
      (l.map (Option.map f)).filterMap id = (l.filterMap id).map f
  | [] => rfl
  | none :: rest => by
    simp [List.filterMap_cons, filterMap_optionMap f rest]
  | some v :: rest => by
    simp [List.filterMap_cons, filterMap_optionMap f rest]

theorem filter_truthy_map_rewriteConn (s t : String) (l : List Val) :
    (l.map (rewriteConn s t)).filter truthy =
      (l.filter truthy).map (rewriteConn s t) := by
  rw [List.filter_map]
  congr 1
  apply List.filter_congr
  intro v _
  simp [Function.comp, truthy_rewriteConn]

theorem rewriteFieldVal_direct (s t : String) (k : String)
    (h : directConnectorFields.contains k = true) (v : Val) :
    rewriteFieldVal s t k v = rewriteConn s t v := by
  unfold rewriteFieldVal
  rw [if_pos h]

theorem rewriteFieldVal_carrier (s t : String) (k : String)
    (h1 : directConnectorFields.contains k = false)
    (h2 : connectorArrayFields.contains k = true) (v : Val) :
    rewriteFieldVal s t k v =
      (match v with
       | .vArr xs => Val.vArr (xs.map (rewriteCarrier s t))
       | other => other) := by
  unfold rewriteFieldVal
  rw [if_neg (by rw [h1]; simp), if_pos h2]

theorem getConnectors_rewriteNode (s t : String) (nd : Val) :
    getConnectors (rewriteNode s t nd) =
      (getConnectors nd).map (rewriteConn s t) := by
  cases nd with
  | vObj fs =>
    have hlk : ∀ k, getFieldV (rewriteNode s t (.vObj fs)) k =
        (lookupF fs k).map (rewriteFieldVal s t k) := by
      intro k
      simp only [rewriteNode, getFieldV]
      exact lookupF_map_vals (rewriteFieldVal s t) fs k
    have hslot : ∀ k, directConnectorFields.contains k = true →
        getFieldV (rewriteNode s t (.vObj fs)) k =
          (getFieldV (.vObj fs) k).map (rewriteConn s t) := by
      intro k hk
      rw [hlk k]
      simp only [getFieldV]
      cases lookupF fs k with
      | none => rfl
      | some v => simp [rewriteFieldVal_direct s t k hk]
    have hcar : ∀ k, directConnectorFields.contains k = false →
        connectorArrayFields.contains k = true →
        (match getFieldV (rewriteNode s t (.vObj fs)) k with
         | some (.vArr xs) => xs.map (fun x => getFieldV x "connector")
         | _ => ([] : List (Option Val))) =
        ((match getFieldV (.vObj fs) k with
          | some (.vArr xs) => xs.map (fun x => getFieldV x "connector")
          | _ => ([] : List (Option Val))).map
            (Option.map (rewriteConn s t))) := by
      intro k h1 h2
      rw [hlk k]
      have hg : getFieldV (.vObj fs) k = lookupF fs k := rfl
      rw [hg]
      cases hv : lookupF fs k with
      | none => rfl
      | some v =>
        simp only [Option.map, rewriteFieldVal_carrier s t k h1 h2]
        cases v with
        | vArr xs =>
          simp only [List.map_map]
          apply List.map_congr_left
          intro r _
          simp [Function.comp, getFieldV_rewriteCarrier]
        | vNull => rfl
        | vStr _ => rfl
        | vNum _ => rfl
        | vBool _ => rfl
        | vObj _ => rfl
    have hassemble : ∀ l1 l2 : List (Option Val),
        l2 = l1.map (Option.map (rewriteConn s t)) →
        (l2.filterMap id).filter truthy =
          ((l1.filterMap id).filter truthy).map (rewriteConn s t) := by
      intro l1 l2 h
      subst h
      rw [filterMap_optionMap, filter_truthy_map_rewriteConn]
    simp only [getConnectors]
    rw [hslot "connector" (by decide), hslot "defaultConnector" (by decide),
      hslot "nextValueConnector" (by decide),
      hslot "noMoreValuesConnector" (by decide),
      hslot "faultConnector" (by decide),
      hcar "rules" (by decide) (by decide),
      hcar "scheduledPaths" (by decide) (by decide),
      hcar "waitEvents" (by decide) (by decide)]
    apply hassemble
    cases h1 : getFieldV (.vObj fs) "connector" <;>
    cases h2 : getFieldV (.vObj fs) "defaultConnector" <;>
    cases h3 : getFieldV (.vObj fs) "nextValueConnector" <;>
    cases h4 : getFieldV (.vObj fs) "noMoreValuesConnector" <;>
    cases h5 : getFieldV (.vObj fs) "faultConnector" <;>
    simp [List.map_append, Option.map]
  | vNull => rfl
  | vStr _ => rfl
  | vNum _ => rfl
  | vBool _ => rfl
  | vArr _ => rfl

theorem filter_truthy_map (f : Val → Val)
    (hf : ∀ v, truthy (f v) = truthy v) (l : List Val) :
    (l.map f).filter truthy = (l.filter truthy).map f := by
  rw [List.filter_map]
  congr 1
  apply List.filter_congr
  intro v _
  simp [Function.comp, hf]

theorem nodePosVal_start (f : Val → Val) (v : Val) :
    nodePosVal f "start" v = f v := by
  simp [nodePosVal]

theorem nodePosVal_coll (f : Val → Val) (p : String) (v : Val)
    (h1 : (p == "start") = false)
    (h2 : FLOW_ARRAY_NODES.contains p = true) :
    nodePosVal f p v =
      (match v with
       | .vArr xs => Val.vArr (xs.map f)
       | other => other) := by
  unfold nodePosVal
  rw [if_neg (by rw [h1]; simp), if_pos h2]

theorem collFold (f : Val → Val) (o : Obj) :
    ∀ props : List String,
      (∀ p ∈ props, (p == "start") = false ∧
        FLOW_ARRAY_NODES.contains p = true) →
      ∀ acc : List Val,
        props.foldl
          (fun acc2 p =>
            acc2 ++ (match lookupF (mapNodesObj f o) p with
                     | some (.vArr xs) => xs
                     | _ => [])) (acc.map f) =
        (props.foldl
          (fun acc2 p =>
            acc2 ++ (match lookupF o p with
                     | some (.vArr xs) => xs
                     | _ => [])) acc).map f
  | [], _, acc => rfl
  | p :: rest, hp, acc => by
    simp only [List.foldl_cons]
    have hlk : lookupF (mapNodesObj f o) p =
        (lookupF o p).map (nodePosVal f p) :=
      lookupF_map_vals (nodePosVal f) o p
    rw [hlk]
    have hmatch : (match (lookupF o p).map (nodePosVal f p) with
        | some (.vArr xs) => xs
        | _ => ([] : List Val)) =
        (match lookupF o p with
         | some (.vArr xs) => xs
         | _ => ([] : List Val)).map f := by
      cases hv : lookupF o p with
      | none => rfl
      | some v =>
        simp only [Option.map]
        rw [nodePosVal_coll f p v (hp p (by simp)).1 (hp p (by simp)).2]
        cases v <;> rfl
    rw [hmatch, ← List.map_append]
    exact collFold f o rest (fun q hq => hp q (by simp [hq])) (acc ++ _)

theorem getFlowNodes_mapNodesObj (f : Val → Val)
    (hf : ∀ v, truthy (f v) = truthy v) (o : Obj) :
    getFlowNodes (mapNodesObj f o) = (getFlowNodes o).map f := by
  unfold getFlowNodes
  have hstart : (match lookupF (mapNodesObj f o) "start" with
      | some v => [v]
      | none => ([] : List Val)) =
      (match lookupF o "start" with
       | some v => [v]
       | none => ([] : List Val)).map f := by
    have hl : lookupF (mapNodesObj f o) "start" =
        (lookupF o "start").map (nodePosVal f "start") :=
      lookupF_map_vals (nodePosVal f) o "start"
    rw [hl]
    cases lookupF o "start" with
    | none => rfl
    | some v => simp [Option.map, nodePosVal_start]
  have hcoll := collFold f o FLOW_ARRAY_NODES (by decide) []
  simp only [List.map_nil] at hcoll
  rw [hstart, hcoll]
  simp only [← List.map_append]
  exact filter_truthy_map f hf _

theorem nodePosVal_comp (f h : Val → Val) (k : String) (v : Val) :
    nodePosVal f k (nodePosVal h k v) = nodePosVal (fun x => f (h x)) k v := by
  unfold nodePosVal
  by_cases hs : (k == "start") = true
  · rw [if_pos hs, if_pos hs, if_pos hs]
  · rw [if_neg hs, if_neg hs, if_neg hs]
    by_cases hc : FLOW_ARRAY_NODES.contains k = true
    · rw [if_pos hc, if_pos hc, if_pos hc]
      cases v with
      | vArr xs => simp [List.map_map]
      | vNull => rfl
      | vStr _ => rfl
      | vNum _ => rfl
      | vBool _ => rfl
      | vObj _ => rfl
    · rw [if_neg hc, if_neg hc, if_neg hc]

theorem mapNodesObj_comp (f h : Val → Val) (o : Obj) :
    mapNodesObj f (mapNodesObj h o) = mapNodesObj (fun v => f (h v)) o := by
  unfold mapNodesObj
  rw [List.map_map]
  apply List.map_congr_left
  intro kv _
  simp [Function.comp, nodePosVal_comp]

theorem rewriteConn_self (s : String) (c : Val) : rewriteConn s s c = c := by
  unfold rewriteConn
  by_cases h : targetRefIs c s = true
  · rw [if_pos h]
    cases c with
    | vObj co =>
      simp only [targetRefIs, getFieldV] at h
      cases hl : lookupF co "targetReference" with
      | none => rw [hl] at h; simp at h
      | some w =>
        rw [hl] at h
        cases w with
        | vStr x =>
          have hx : x = s := by simpa using h
          subst hx
          simp [setF_lookup_self co "targetReference" _ hl]
        | vNull => simp at h
        | vNum _ => simp at h
        | vBool _ => simp at h
        | vArr _ => simp at h
        | vObj _ => simp at h
    | vNull => simp [targetRefIs, getFieldV] at h
    | vStr _ => simp [targetRefIs, getFieldV] at h
    | vNum _ => simp [targetRefIs, getFieldV] at h
    | vBool _ => simp [targetRefIs, getFieldV] at h
    | vArr _ => simp [targetRefIs, getFieldV] at h
  · rw [if_neg h]

theorem rewriteCarrier_self (s : String) (r : Val) :
    rewriteCarrier s s r = r := by
  cases r with
  | vObj ro =>
    unfold rewriteCarrier
    cases hl : lookupF ro "connector" with
    | none => simp [hl]
    | some c =>
      simp [hl, rewriteConn_self, setF_lookup_self ro "connector" c hl]
  | vNull => rfl
  | vStr _ => rfl
  | vNum _ => rfl
  | vBool _ => rfl
  | vArr _ => rfl

theorem rewriteFieldVal_self (s k : String) (v : Val) :
    rewriteFieldVal s s k v = v := by
  unfold rewriteFieldVal
  by_cases h1 : directConnectorFields.contains k = true
  · rw [if_pos h1, rewriteConn_self]
  · rw [if_neg h1]
    by_cases h2 : connectorArrayFields.contains k = true
    · rw [if_pos h2]
      cases v with
      | vArr xs =>
        simp only [Val.vArr.injEq]
        have hid : rewriteCarrier s s = id := funext (rewriteCarrier_self s)
        rw [hid, List.map_id]
      | vNull => rfl
      | vStr _ => rfl
      | vNum _ => rfl
      | vBool _ => rfl
      | vObj _ => rfl
    · rw [if_neg h2]

theorem rewriteNode_self (s : String) (nd : Val) :
    rewriteNode s s nd = nd := by
  cases nd with
  | vObj fs => simp [rewriteNode, rewriteFieldVal_self]
  | vNull => rfl
  | vStr _ => rfl
  | vNum _ => rfl
  | vBool _ => rfl
  | vArr _ => rfl

theorem truthy_rewriteNode (s t : String) (nd : Val) :
    truthy (rewriteNode s t nd) = truthy nd := by
  cases nd <;> simp [rewriteNode, truthy]

theorem truthy_condRewrite (s t : String) (nd : Val) :
    truthy (condRewrite s t nd) = truthy nd := by
  unfold condRewrite
  by_cases h : ((getConnectors nd).any (fun c => targetRefIs c s)) = true
  · rw [if_pos h, truthy_rewriteNode]
  · rw [if_neg h]

theorem getConnectors_condRewrite (src tgt : String) (nd : Val) :
    getConnectors (condRewrite src tgt nd) =
      (getConnectors nd).map (rewriteConn src tgt) := by
  unfold condRewrite
  cases hm : (getConnectors nd).any (fun c => targetRefIs c src) with
  | true => simpa using getConnectors_rewriteNode src tgt nd
  | false =>
    rw [if_neg (by simp)]
    have hall : ∀ c ∈ getConnectors nd, targetRefIs c src = false := by
      intro c hc
      have := List.any_eq_false.mp hm c hc
      simpa using this
    symm
    exact (List.map_congr_left fun c hc =>
      rewriteConn_not_target src tgt c (hall c hc)).trans
      (List.map_id' _)

theorem condRewrite_idem (src tgt : String) (nd : Val) :
    condRewrite src tgt (condRewrite src tgt nd) =
      condRewrite src tgt nd := by
  cases hm : (getConnectors nd).any (fun c => targetRefIs c src) with
  | false => simp [condRewrite, hm]
  | true =>
    by_cases hst : src = tgt
    · subst hst
      simp [condRewrite, hm, rewriteNode_self]
    · have hnone : ((getConnectors (rewriteNode src tgt nd)).any
          (fun c => targetRefIs c src)) = false := by
        rw [getConnectors_rewriteNode, List.any_map]
        apply List.any_eq_false.mpr
        intro c hc
        cases hcs : targetRefIs c src with
        | true =>
          simp only [Function.comp, targetRefIs,
            targetRef_rewriteConn src tgt c hcs]
          simp
          exact fun hh => hst hh.symm
        | false =>
          simp only [Function.comp,
            rewriteConn_not_target src tgt c hcs]
          simp [hcs]
      simp [condRewrite, hm, hnone]

/-- C7 (amended): reparenting rewrites, positionally, exactly the
connectors that target `src`: the flow's node list is the original list
with each parent-of-`src` node rewritten in place; a node's connector
list keeps its length and order, with each slot rewritten by
`rewriteConn`; a connector targeting `src` afterwards targets `tgt`; a
connector not targeting `src` is unchanged; a node none of whose
connectors target `src` — in particular the node named `src`, provided it
does not target itself — is structurally unchanged; and a second
identical call is a no-op. -/
theorem reparentNode_correct (o : Obj) (src tgt : String) :
    getFlowNodes (reparentNode o src tgt) =
      (getFlowNodes o).map (condRewrite src tgt) ∧
    (∀ nd, getConnectors (condRewrite src tgt nd) =
      (getConnectors nd).map (rewriteConn src tgt)) ∧
    (∀ c, targetRefIs c src = true →
      getFieldV (rewriteConn src tgt c) "targetReference" =
        some (.vStr tgt)) ∧
    (∀ c, targetRefIs c src = false → rewriteConn src tgt c = c) ∧
    (∀ nd, ((getConnectors nd).any (fun c => targetRefIs c src)) = false →
      condRewrite src tgt nd = nd) ∧
    reparentNode (reparentNode o src tgt) src tgt =
      reparentNode o src tgt := by
  refine ⟨getFlowNodes_mapNodesObj _ (truthy_condRewrite src tgt) o,
    getConnectors_condRewrite src tgt,
    targetRef_rewriteConn src tgt,
    rewriteConn_not_target src tgt,
    fun nd h => by rw [condRewrite, if_neg (by rw [h]; simp)],
    ?_⟩
  unfold reparentNode
  rw [mapNodesObj_comp]
  have hfun : (fun v => condRewrite src tgt (condRewrite src tgt v)) =
      condRewrite src tgt := funext (condRewrite_idem src tgt)
  rw [hfun]

/-- A flow whose single decision node `B` targets itself. -/
def c7Flow : Obj :=
  [("decisions", Val.vArr [Val.vObj
    [("name", Val.vStr "B"),
     ("connector", Val.vObj [("targetReference", Val.vStr "B")])]])]

/-- C7 counterexample: on a self-loop, `reparentNode doc "B" "X"`
rewrites the connector of the node named `B` itself, so the claim's
conjunct "the node named source is itself structurally unchanged" fails:
the only node of `c7Flow` is named `B` and its connector moves from `B`
to `X`. -/
theorem reparent_selfloop_counterexample :
    getFlowNodes c7Flow = [Val.vObj
      [("name", Val.vStr "B"),
       ("connector", Val.vObj [("targetReference", Val.vStr "B")])]] ∧
    getFlowNodes (reparentNode c7Flow "B" "X") = [Val.vObj
      [("name", Val.vStr "B"),
       ("connector", Val.vObj [("targetReference", Val.vStr "X")])]] ∧
    Val.vObj [("name", Val.vStr "B"),
      ("connector", Val.vObj [("targetReference", Val.vStr "B")])] ≠
    Val.vObj [("name", Val.vStr "B"),
      ("connector", Val.vObj [("targetReference", Val.vStr "X")])] := by
  refine ⟨?_, ?_, by simp⟩
  · simp [c7Flow, getFlowNodes, FLOW_ARRAY_NODES, lookupF, truthy]
  · simp [c7Flow, reparentNode, mapNodesObj, nodePosVal, condRewrite,
      getConnectors, getFieldV, lookupF, targetRefIs, rewriteNode,
      rewriteFieldVal, rewriteConn, rewriteCarrier, setF,
      directConnectorFields, connectorArrayFields, getFlowNodes,
      FLOW_ARRAY_NODES, truthy]

/-- A flow with one decision `A` targeting `B` and one screen `C` with no
connectors. -/
def c7bFlow : Obj :=
  [("decisions", Val.vArr [Val.vObj
    [("name", Val.vStr "A"),
     ("defaultConnector", Val.vObj [("targetReference", Val.vStr "B")])]]),
   ("screens", Val.vArr [Val.vObj [("name", Val.vStr "C")]])]

/-- Witness for C7 (amended) at a concrete flow, connector and node. -/
theorem reparentNode_correct_witness :
    getFlowNodes (reparentNode c7bFlow "B" "X") =
      (getFlowNodes c7bFlow).map (condRewrite "B" "X") ∧
    getFieldV (rewriteConn "B" "X"
        (Val.vObj [("targetReference", Val.vStr "B")])) "targetReference" =
      some (.vStr "X") ∧
    rewriteConn "B" "X" (Val.vObj [("targetReference", Val.vStr "C")]) =
      Val.vObj [("targetReference", Val.vStr "C")] ∧
    condRewrite "B" "X" (Val.vObj [("name", Val.vStr "C")]) =
      Val.vObj [("name", Val.vStr "C")] ∧
    reparentNode (reparentNode c7bFlow "B" "X") "B" "X" =
      reparentNode c7bFlow "B" "X" := by
  refine ⟨(reparentNode_correct c7bFlow "B" "X").1,
    (reparentNode_correct c7bFlow "B" "X").2.2.1 _ (by rfl),
    (reparentNode_correct c7bFlow "B" "X").2.2.2.1 _ (by rfl),
    (reparentNode_correct c7bFlow "B" "X").2.2.2.2.1 _ (by rfl),
    (reparentNode_correct c7bFlow "B" "X").2.2.2.2.2⟩

/-! ## Normalization invariants: what one pass of the engine establishes

`normedVal c v` says `v` is a sequence whose object elements carry all of
`c`'s child fields as sequences, recursively along `c.nestedConfig`;
`NormedAt p c o` says the property `p` of `o`, if truthy, is in that
normal form (with the `start` singleton handled like the source handles
it).  One pass establishes these forms, and on an object already in
these forms the engine is the identity — which yields idempotence. -/

/-- Is `o[ch]` an array? -/
def isArrF (io : Obj) (ch : String) : Bool :=
  match lookupF io ch with
  | some (.vArr _) => true
  | _ => false

/-- Every declared child field of the element is an array. -/
def normedChild (ca : List String) (io : Obj) : Bool :=
  ca.all (isArrF io)

mutual
/-- The value of a processed property: an array of processed items. -/
def normedVal (c : Config) (v : Val) : Bool :=
  match v with
  | .vArr items => normedItems c items
  | _ => false
termination_by (sizeOf c, 2, 0)

/-- Every item of the array is processed. -/
def normedItems (c : Config) (items : List Val) : Bool :=
  match items with
  | [] => true
  | item :: rest => normedItem c item && normedItems c rest
termination_by (sizeOf c, 1, sizeOf items)

/-- A processed item: an object with its child fields as arrays and its
nested configuration satisfied (primitives are untouched by the
engine). -/
def normedItem (c : Config) (item : Val) : Bool :=
  match c, item with
  | .mk ca nc _, .vObj io => normedChild ca io && normedNested nc io
  | _, _ => true
termination_by (sizeOf c, 0, 0)

/-- Every truthy nested-configuration property of the element is in
normal form for its entry. -/
def normedNested : List (String × Config) → Obj → Bool
  | [], _ => true
  | (cp, cc) :: rest, io =>
    (match lookupF io cp with
     | some v => !truthy v || normedAtVal cp cc v
     | none => true) && normedNested rest io
termination_by l _ => (sizeOf l, 4, 0)

/-- Normal form of a truthy property value, `start`-aware: the `start`
singleton object is processed in place; everything else is coerced to a
processed array. -/
def normedAtVal (p : String) (c : Config) (v : Val) : Bool :=
  if p == "start" && isObjV v then
    match c, v with
    | .mk ca nc _, .vObj so => normedChild ca so && normedNested nc so
    | _, _ => true
  else normedVal c v
termination_by (sizeOf c, 3, 0)
end

/-- The property `p` of `o` is normalized for entry `c` (a falsy or
absent property is skipped by the engine's guards). -/
def NormedAt (p : String) (c : Config) (o : Obj) : Bool :=
  match lookupF o p with
  | some v => !truthy v || normedAtVal p c v
  | none => true

mutual
/-- Entry keys are pairwise distinct and sub-configurations well-formed
(true of `NESTED_ARRAY_CONFIG` and all its nested tables). -/
def wfEntries : List (String × Config) → Bool
  | [] => true
  | (k, c) :: rest =>
    rest.all (fun e => !(e.1 == k)) && wfConfig c && wfEntries rest
termination_by l => (sizeOf l, 1)

/-- Well-formedness of one entry's configuration. -/
def wfConfig : Config → Bool
  | .mk _ nc _ => wfEntries nc
termination_by c => (sizeOf c, 0)
end

/-! ### Frame and preservation lemmas -/

theorem frame_ppa (o : Obj) (p q : String) (c : Config)
    (h : (p == q) = false) :
    lookupF (processPropertyArrays o p c) q = lookupF o q := by
  rw [processPropertyArrays]
  have hgen : lookupF (processGeneral o p c) q = lookupF o q := by
    rw [processGeneral]
    cases hl : lookupF (ensureArray o p) p with
    | none => exact lookupF_ensureArray_ne o p q h
    | some v =>
      cases v with
      | vArr items =>
        by_cases he : items.isEmpty
        · simp only [he, if_true]
          exact lookupF_ensureArray_ne o p q h
        · simp only [he, Bool.false_eq_true, if_false]
          rw [lookupF_setF_ne _ _ _ _ h]
          exact lookupF_ensureArray_ne o p q h
      | vNull => exact lookupF_ensureArray_ne o p q h
      | vStr _ => exact lookupF_ensureArray_ne o p q h
      | vNum _ => exact lookupF_ensureArray_ne o p q h
      | vBool _ => exact lookupF_ensureArray_ne o p q h
      | vObj _ => exact lookupF_ensureArray_ne o p q h
  by_cases hs : (p == "start") = true
  · rw [if_pos hs]
    cases hl : lookupF o p with
    | none => exact hgen
    | some v =>
      cases v with
      | vObj so =>
        cases c with
        | mk ca nc r => exact lookupF_setF_ne _ _ _ _ h
      | vNull => exact hgen
      | vStr _ => exact hgen
      | vNum _ => exact hgen
      | vBool _ => exact hgen
      | vArr _ => exact hgen
  · rw [if_neg hs]
    exact hgen

theorem frame_procNested (q : String) :
    ∀ (entries : List (String × Config)) (o : Obj),
      (∀ e ∈ entries, (e.1 == q) = false) →
      lookupF (procNestedObj entries o) q = lookupF o q
  | [], o, _ => by rw [procNestedObj]
  | (cp, cc) :: rest, o, h => by
    rw [procNestedObj]
    rw [frame_procNested q rest _ (fun e he => h e (by simp [he]))]
    by_cases hg : truthyF o cp = true
    · rw [if_pos hg]
      exact frame_ppa o cp q cc (h (cp, cc) (by simp))
    · rw [if_neg hg]

theorem pres_ensureArray (io : Obj) (p q : String)
    (h : isArrF io q = true) : isArrF (ensureArray io p) q = true := by
  by_cases hpq : (p == q) = true
  · have : p = q := by simpa using hpq
    subst this
    unfold isArrF at h ⊢
    cases hl : lookupF io p with
    | none => rw [hl] at h; simp at h
    | some v =>
      rw [hl] at h
      cases v with
      | vArr xs => rw [ensureArray_of_arr io p xs hl, hl]
      | vNull => simp at h
      | vStr _ => simp at h
      | vNum _ => simp at h
      | vBool _ => simp at h
      | vObj _ => simp at h
  · unfold isArrF at h ⊢
    rw [lookupF_ensureArray_ne io p q (by simpa using hpq)]
    exact h

theorem pres_foldl_ensureArray (q : String) :
    ∀ (ca : List String) (io : Obj), isArrF io q = true →
      isArrF (ca.foldl ensureArray io) q = true
  | [], _, h => h
  | ch :: rest, io, h =>
    pres_foldl_ensureArray q rest (ensureArray io ch)
      (pres_ensureArray io ch q h)

theorem pres_ppa (o : Obj) (p q : String) (c : Config)
    (h : isArrF o q = true) :
    isArrF (processPropertyArrays o p c) q = true := by
  by_cases hpq : (p == q) = true
  · have hpq2 : p = q := by simpa using hpq
    subst hpq2
    unfold isArrF at h
    rw [processPropertyArrays]
    cases hl : lookupF o p with
    | none => rw [hl] at h; simp at h
    | some v =>
      rw [hl] at h
      cases v with
      | vArr xs =>
        have hgen : isArrF (processGeneral o p c) p = true := by
          rw [processGeneral]
          rw [ensureArray_of_arr o p xs hl]
          rw [hl]
          by_cases he : xs.isEmpty
          · simp only [he, if_true]
            unfold isArrF
            rw [hl]
          · simp only [he, Bool.false_eq_true, if_false]
            unfold isArrF
            rw [lookupF_setF_self]
        by_cases hs : (p == "start") = true
        · rw [if_pos hs]
          exact hgen
        · rw [if_neg hs]
          exact hgen
      | vNull => simp at h
      | vStr _ => simp at h
      | vNum _ => simp at h
      | vBool _ => simp at h
      | vObj _ => simp at h
  · unfold isArrF at h ⊢
    rw [frame_ppa o p q c (by simpa using hpq)]
    exact h

theorem pres_procNested (q : String) :
    ∀ (entries : List (String × Config)) (o : Obj),
      isArrF o q = true → isArrF (procNestedObj entries o) q = true
  | [], _, h => by rw [procNestedObj]; exact h
  | (cp, cc) :: rest, o, h => by
    rw [procNestedObj]
    apply pres_procNested q rest
    by_cases hg : truthyF o cp = true
    · rw [if_pos hg]
      exact pres_ppa o cp q cc h
    · rw [if_neg hg]
      exact h

/-! ### One pass establishes the normal form -/

theorem normedChild_iff (ca : List String) (io : Obj) :
    normedChild ca io = true ↔ ∀ ch ∈ ca, isArrF io ch = true := by
  simp [normedChild, List.all_eq_true]

theorem est_child_fold :
    ∀ (ca : List String) (io : Obj) (ch : String), ch ∈ ca →
      isArrF (ca.foldl ensureArray io) ch = true
  | [], _, ch, h => absurd h (by simp)
  | c0 :: rest, io, ch, h => by
    simp only [List.foldl_cons]
    rcases List.mem_cons.mp h with h1 | h2
    · subst h1
      apply pres_foldl_ensureArray
      unfold isArrF
      obtain ⟨xs, hxs⟩ := lookupF_ensureArray_self io ch
      rw [hxs]
    · exact est_child_fold rest (ensureArray io c0) ch h2

mutual
theorem est_ppa (o : Obj) (p : String) (c : Config)
    (hwf : wfConfig c = true) :
    NormedAt p c (processPropertyArrays o p c) = true := by
  rw [processPropertyArrays]
  by_cases hs : (p == "start") = true
  · rw [if_pos hs]
    cases hl : lookupF o p with
    | none => exact est_general o p c hwf
    | some v =>
      cases v with
      | vObj so =>
        cases c with
        | mk ca nc r =>
          unfold NormedAt
          rw [lookupF_setF_self]
          simp only [truthy, Bool.not_true, Bool.false_or]
          rw [normedAtVal]
          rw [if_pos (by rw [hs]; simp [isObjV])]
          simp only [Bool.and_eq_true]
          constructor
          · rw [normedChild_iff]
            intro ch hch
            exact pres_procNested ch nc _ (est_child_fold ca so ch hch)
          · exact est_nested nc (ca.foldl ensureArray so)
              (by rw [wfConfig] at hwf; exact hwf)
      | vNull => exact est_general o p c hwf
      | vStr _ => exact est_general o p c hwf
      | vNum _ => exact est_general o p c hwf
      | vBool _ => exact est_general o p c hwf
      | vArr _ => exact est_general o p c hwf
  · rw [if_neg hs]
    exact est_general o p c hwf
termination_by (sizeOf c, 3, 0)

theorem est_general (o : Obj) (p : String) (c : Config)
    (hwf : wfConfig c = true) :
    NormedAt p c (processGeneral o p c) = true := by
  rw [processGeneral]
  obtain ⟨xs, hxs⟩ := lookupF_ensureArray_self o p
  rw [hxs]
  by_cases he : xs.isEmpty
  · simp only [he, if_true]
    unfold NormedAt
    rw [hxs]
    simp only [truthy, Bool.not_true, Bool.false_or]
    simp only [normedAtVal, isObjV, Bool.and_false, Bool.false_eq_true,
      if_false]
    have : xs = [] := by simpa [List.isEmpty_iff] using he
    subst this
    simp only [normedVal, normedItems]
  · simp only [he, Bool.false_eq_true, if_false]
    unfold NormedAt
    rw [lookupF_setF_self]
    simp only [truthy, Bool.not_true, Bool.false_or]
    simp only [normedAtVal, isObjV, Bool.and_false, Bool.false_eq_true,
      if_false]
    simp only [normedVal]
    exact est_items c xs hwf
termination_by (sizeOf c, 2, 0)

theorem est_items (c : Config) (items : List Val)
    (hwf : wfConfig c = true) :
    normedItems c (procItems c items) = true := by
  cases items with
  | nil => rw [procItems, normedItems]
  | cons item rest =>
    rw [procItems, normedItems]
    simp only [Bool.and_eq_true]
    exact ⟨est_item c item hwf, est_items c rest hwf⟩
termination_by (sizeOf c, 1, sizeOf items)

theorem est_item (c : Config) (item : Val) (hwf : wfConfig c = true) :
    normedItem c (procItem c item) = true := by
  cases c with
  | mk ca nc r =>
    cases item with
    | vObj io =>
      rw [procItem, normedItem]
      simp only [Bool.and_eq_true]
      constructor
      · rw [normedChild_iff]
        intro ch hch
        exact pres_procNested ch nc _ (est_child_fold ca io ch hch)
      · exact est_nested nc (ca.foldl ensureArray io)
          (by rw [wfConfig] at hwf; exact hwf)
    | vNull => simp only [procItem, normedItem]
    | vStr _ => simp only [procItem, normedItem]
    | vNum _ => simp only [procItem, normedItem]
    | vBool _ => simp only [procItem, normedItem]
    | vArr _ => simp only [procItem, normedItem]
termination_by (sizeOf c, 0, 0)

theorem est_nested (entries : List (String × Config)) (io : Obj)
    (hwf : wfEntries entries = true) :
    normedNested entries (procNestedObj entries io) = true := by
  cases entries with
  | nil => rw [procNestedObj, normedNested]
  | cons e rest =>
    cases e with
    | mk cp cc =>
      rw [wfEntries] at hwf
      simp only [Bool.and_eq_true] at hwf
      obtain ⟨⟨hdisj, hwcc⟩, hwrest⟩ := hwf
      rw [procNestedObj, normedNested]
      simp only [Bool.and_eq_true]
      constructor
      · rw [frame_procNested cp rest _
          (fun e2 he2 => by
            have := List.all_eq_true.mp hdisj e2 he2
            simpa using this)]
        by_cases hg : truthyF io cp = true
        · rw [if_pos hg]
          have := est_ppa io cp cc hwcc
          rw [NormedAt] at this
          exact this
        · rw [if_neg hg]
          unfold truthyF at hg
          cases hlk : lookupF io cp with
          | none => rfl
          | some v =>
            rw [hlk] at hg
            simp only [Bool.not_eq_true] at hg
            simp [hg]
      · exact est_nested rest _ hwrest
termination_by (sizeOf entries, 4, 0)
end

/-! ### The engine is the identity on normal forms -/

theorem isArrF_exists (io : Obj) (q : String) (h : isArrF io q = true) :
    ∃ xs, lookupF io q = some (.vArr xs) := by
  unfold isArrF at h
  cases hl : lookupF io q with
  | none => rw [hl] at h; simp at h
  | some v =>
    rw [hl] at h
    cases v with
    | vArr xs => exact ⟨xs, rfl⟩
    | vNull => simp at h
    | vStr _ => simp at h
    | vNum _ => simp at h
    | vBool _ => simp at h
    | vObj _ => simp at h

theorem fix_child_fold :
    ∀ (ca : List String) (io : Obj), normedChild ca io = true →
      ca.foldl ensureArray io = io
  | [], _, _ => rfl
  | c0 :: rest, io, h => by
    rw [normedChild_iff] at h
    obtain ⟨xs, hxs⟩ := isArrF_exists io c0 (h c0 (by simp))
    simp only [List.foldl_cons, ensureArray_of_arr io c0 xs hxs]
    exact fix_child_fold rest io (by
      rw [normedChild_iff]
      intro ch hch
      exact h ch (by simp [hch]))

mutual
theorem fix_ppa (o : Obj) (p : String) (c : Config)
    (hg : truthyF o p = true) (hn : NormedAt p c o = true) :
    processPropertyArrays o p c = o := by
  cases hl : lookupF o p with
  | none => unfold truthyF at hg; rw [hl] at hg; simp at hg
  | some v =>
    have hgv : truthy v = true := by
      unfold truthyF at hg; rw [hl] at hg; simpa using hg
    have hnv : normedAtVal p c v = true := by
      unfold NormedAt at hn; rw [hl] at hn; simpa [hgv] using hn
    rw [processPropertyArrays]
    by_cases hs : (p == "start") = true
    · rw [if_pos hs, hl]
      cases v with
      | vObj so =>
        cases c with
        | mk ca nc r =>
          rw [normedAtVal] at hnv
          rw [if_pos (by rw [hs]; simp [isObjV])] at hnv
          simp only [Bool.and_eq_true] at hnv
          show setF o p
            (Val.vObj (procNestedObj nc (List.foldl ensureArray so ca))) = o
          rw [fix_child_fold ca so hnv.1, fix_nested nc so hnv.2]
          exact setF_lookup_self o p _ hl
      | vNull => exact fix_general o p c (.vNull) hl hnv (Or.inr (by simp [isObjV]))
      | vStr a => exact fix_general o p c (.vStr a) hl hnv (Or.inr (by simp [isObjV]))
      | vNum a => exact fix_general o p c (.vNum a) hl hnv (Or.inr (by simp [isObjV]))
      | vBool a => exact fix_general o p c (.vBool a) hl hnv (Or.inr (by simp [isObjV]))
      | vArr a => exact fix_general o p c (.vArr a) hl hnv (Or.inr (by simp [isObjV]))
    · rw [if_neg hs]
      exact fix_general o p c v hl hnv
        (Or.inl (by simpa using hs))
termination_by (sizeOf c, 3, 0)

theorem fix_general (o : Obj) (p : String) (c : Config) (v : Val)
    (hl : lookupF o p = some v) (hn : normedAtVal p c v = true)
    (hno : (p == "start") = false ∨ isObjV v = false) :
    processGeneral o p c = o := by
  cases v with
  | vArr items =>
    have hnv : normedItems c items = true := by
      have h2 : normedVal c (.vArr items) = true := by
        rcases hno with h | h
        · simpa [normedAtVal, h] using hn
        · simpa [normedAtVal, isObjV] using hn
      simpa [normedVal] using h2
    rw [processGeneral, ensureArray_of_arr o p items hl, hl]
    by_cases he : items.isEmpty
    · simp [he]
    · simp only [he, Bool.false_eq_true, if_false,
        fix_items c items hnv]
      exact setF_lookup_self o p _ hl
  | vNull => rcases hno with h | h <;>
      simp [normedAtVal, normedVal, h, isObjV] at hn
  | vStr _ => rcases hno with h | h <;>
      simp [normedAtVal, normedVal, h, isObjV] at hn
  | vNum _ => rcases hno with h | h <;>
      simp [normedAtVal, normedVal, h, isObjV] at hn
  | vBool _ => rcases hno with h | h <;>
      simp [normedAtVal, normedVal, h, isObjV] at hn
  | vObj io =>
    rcases hno with h | h
    · cases c with
      | mk ca nc r => simp [normedAtVal, normedVal, h] at hn
    · simp [isObjV] at h
termination_by (sizeOf c, 2, 0)

theorem fix_items (c : Config) (items : List Val)
    (hn : normedItems c items = true) : procItems c items = items := by
  cases items with
  | nil => rw [procItems]
  | cons item rest =>
    rw [normedItems] at hn
    simp only [Bool.and_eq_true] at hn
    rw [procItems, fix_item c item hn.1, fix_items c rest hn.2]
termination_by (sizeOf c, 1, sizeOf items)

theorem fix_item (c : Config) (item : Val)
    (hn : normedItem c item = true) : procItem c item = item := by
  cases c with
  | mk ca nc r =>
    cases item with
    | vObj io =>
      rw [normedItem] at hn
      simp only [Bool.and_eq_true] at hn
      rw [procItem, fix_child_fold ca io hn.1, fix_nested nc io hn.2]
    | vNull => simp only [procItem]
    | vStr _ => simp only [procItem]
    | vNum _ => simp only [procItem]
    | vBool _ => simp only [procItem]
    | vArr _ => simp only [procItem]
termination_by (sizeOf c, 0, 0)

theorem fix_nested (entries : List (String × Config)) (io : Obj)
    (hn : normedNested entries io = true) :
    procNestedObj entries io = io := by
  cases entries with
  | nil => rw [procNestedObj]
  | cons e rest =>
    cases e with
    | mk cp cc =>
      rw [normedNested] at hn
      simp only [Bool.and_eq_true] at hn
      rw [procNestedObj]
      by_cases hg : truthyF io cp = true
      · rw [if_pos hg]
        rw [fix_ppa io cp cc hg (by
          unfold NormedAt
          exact hn.1)]
        exact fix_nested rest io hn.2
      · rw [if_neg hg]
        exact fix_nested rest io hn.2
termination_by (sizeOf entries, 4, 0)
end

/-! ### Assembling idempotence -/

/-- Every table entry's property of `o` is in normal form. -/
def AllNormed : List (String × Config) → Obj → Bool
  | [], _ => true
  | (p, c) :: rest, o => NormedAt p c o && AllNormed rest o

theorem frame_NormedAt (p : String) (c : Config) (o o' : Obj)
    (h : lookupF o' p = lookupF o p) : NormedAt p c o' = NormedAt p c o := by
  unfold NormedAt
  rw [h]

theorem est_allNormed :
    ∀ (entries : List (String × Config)), wfEntries entries = true →
      ∀ o : Obj, AllNormed entries (procNestedObj entries o) = true
  | [], _, o => by rw [AllNormed]
  | (p, c) :: rest, hwf, o => by
    rw [wfEntries] at hwf
    simp only [Bool.and_eq_true] at hwf
    obtain ⟨⟨hdisj, hwc⟩, hwrest⟩ := hwf
    rw [procNestedObj, AllNormed]
    simp only [Bool.and_eq_true]
    constructor
    · rw [frame_NormedAt p c _ _ (frame_procNested p rest _
        (fun e2 he2 => by
          have := List.all_eq_true.mp hdisj e2 he2
          simpa using this))]
      by_cases hg : truthyF o p = true
      · rw [if_pos hg]
        exact est_ppa o p c hwc
      · rw [if_neg hg]
        unfold truthyF at hg
        unfold NormedAt
        cases hlk : lookupF o p with
        | none => rfl
        | some v =>
          rw [hlk] at hg
          simp only [Bool.not_eq_true] at hg
          simp [hg]
    · exact est_allNormed rest hwrest _

theorem fix_allNormed :
    ∀ (entries : List (String × Config)) (o : Obj),
      AllNormed entries o = true → procNestedObj entries o = o
  | [], o, _ => by rw [procNestedObj]
  | (p, c) :: rest, o, hn => by
    rw [AllNormed] at hn
    simp only [Bool.and_eq_true] at hn
    rw [procNestedObj]
    by_cases hg : truthyF o p = true
    · rw [if_pos hg, fix_ppa o p c hg hn.1]
      exact fix_allNormed rest o hn.2
    · rw [if_neg hg]
      exact fix_allNormed rest o hn.2

theorem fix_stepA :
    ∀ (props : List String) (o : Obj),
      (∀ p ∈ props, isArrF o p = true) → props.foldl ensureArray o = o
  | [], _, _ => rfl
  | p0 :: rest, o, h => by
    obtain ⟨xs, hxs⟩ := isArrF_exists o p0 (h p0 (by simp))
    simp only [List.foldl_cons, ensureArray_of_arr o p0 xs hxs]
    exact fix_stepA rest o (fun p hp => h p (by simp [hp]))

/-- The schema table has pairwise distinct keys at every level. -/
theorem wf_table : wfEntries NESTED_ARRAY_CONFIG = true := by
  simp [NESTED_ARRAY_CONFIG, wfEntries, wfConfig]

/-- C3: normalization is idempotent — `ensureArrayProperties` applied
twice equals `ensureArrayProperties` applied once, field for field, on
every document; re-running it on already normalized input is a no-op. -/
theorem ensureArrayProperties_idempotent (o : Obj) :
    ensureArrayProperties (ensureArrayProperties o) =
      ensureArrayProperties o := by
  unfold ensureArrayProperties processNestedArrays
  have harr : ∀ p ∈ FLOW_ARRAY_PROPERTIES,
      isArrF (procNestedObj NESTED_ARRAY_CONFIG
        (FLOW_ARRAY_PROPERTIES.foldl ensureArray o)) p = true := by
    intro p hp
    exact pres_procNested p NESTED_ARRAY_CONFIG _
      (est_child_fold FLOW_ARRAY_PROPERTIES o p hp)
  rw [fix_stepA FLOW_ARRAY_PROPERTIES _ harr]
  exact fix_allNormed NESTED_ARRAY_CONFIG _
    (est_allNormed NESTED_ARRAY_CONFIG wf_table _)

/-! ## C1 / C2: how deep the sequence invariant actually reaches -/

/-- Read a field of an optional object value. -/
def atField (ov : Option Val) (k : String) : Option Val :=
  match ov with
  | some (.vObj io) => lookupF io k
  | _ => none

/-- Index into an optional array value. -/
def atIndex (ov : Option Val) (i : Nat) : Option Val :=
  match ov with
  | some (.vArr xs) => xs[i]?
  | _ => none

/-- `flow.screens[0].fields` of a flow object. -/
def screens0fields (o : Obj) : Option Val :=
  atField (atIndex (lookupF o "screens") 0) "fields"

/-- `flow.screens[0].fields[0].fields`: the depth-2 field group. -/
def depth1fields (o : Obj) : Option Val :=
  atField (atIndex (screens0fields o) 0) "fields"

/-- `flow.screens[0].fields[0].fields[0].fields`: the depth-3 field
group. -/
def depth2fields (o : Obj) : Option Val :=
  atField (atIndex (depth1fields o) 0) "fields"

/-- A screen whose field `f1` carries a non-empty nested field group
`f2`, which itself carries a scalar `fields` value at depth 3. -/
def deepFlow : Obj :=
  [("screens", Val.vArr [Val.vObj [("fields", Val.vArr [Val.vObj
    [("name", Val.vStr "f1"),
     ("fields", Val.vArr [Val.vObj
       [("name", Val.vStr "f2"),
        ("fields", Val.vStr "deep")]])]])]])]

theorem foldl_ensureArray_pres_arr :
    ∀ (props : List String) (o : Obj) (q : String) (xs : List Val),
      lookupF o q = some (.vArr xs) →
      lookupF (props.foldl ensureArray o) q = some (.vArr xs)
  | [], _, _, _, h => h
  | p0 :: rest, o, q, xs, h => by
    simp only [List.foldl_cons]
    apply foldl_ensureArray_pres_arr rest
    by_cases hpq : (p0 == q) = true
    · have : p0 = q := by simpa using hpq
      subst this
      rw [ensureArray_of_arr o p0 xs h]
      exact h
    · rw [lookupF_ensureArray_ne o p0 q (by simpa using hpq)]
      exact h

theorem truthyF_procNested (p : String) (entries : List (String × Config))
    (o : Obj) (hne : ∀ e ∈ entries, (e.1 == p) = false) :
    truthyF (procNestedObj entries o) p = truthyF o p := by
  unfold truthyF
  rw [frame_procNested p entries o hne]

theorem lookupF_procNestedObj_split (p : String) (c : Config)
    (post : List (String × Config))
    (hpost : ∀ e ∈ post, (e.1 == p) = false)
    (pre : List (String × Config)) :
    ∀ o : Obj, (∀ e ∈ pre, (e.1 == p) = false) →
      lookupF (procNestedObj (pre ++ (p, c) :: post) o) p =
        lookupF (if truthyF (procNestedObj pre o) p then
          processPropertyArrays (procNestedObj pre o) p c
          else procNestedObj pre o) p := by
  induction pre with
  | nil =>
    intro o _
    have h0 : procNestedObj ([] : List (String × Config)) o = o := by
      rw [procNestedObj]
    rw [List.nil_append, h0]
    have hcons : procNestedObj ((p, c) :: post) o =
        procNestedObj post
          (if truthyF o p then processPropertyArrays o p c else o) := by
      rw [procNestedObj]
    rw [hcons, frame_procNested p post _ hpost]
  | cons e0 pre2 ih =>
    intro o hpre
    cases e0 with
    | mk k0 c0 =>
      rw [List.cons_append]
      have hpre2 : ∀ e ∈ pre2, (e.1 == p) = false :=
        fun e he => hpre e (by simp [he])
      have hstep : ∀ w : Obj, procNestedObj ((k0, c0) :: pre2) w =
          procNestedObj pre2
            (if truthyF w k0 then processPropertyArrays w k0 c0 else w) := by
        intro w
        rw [procNestedObj]
      have hstep2 : procNestedObj ((k0, c0) :: (pre2 ++ (p, c) :: post)) o =
          procNestedObj (pre2 ++ (p, c) :: post)
            (if truthyF o k0 then processPropertyArrays o k0 c0 else o) := by
        rw [procNestedObj]
      rw [hstep2, hstep o]
      exact ih _ hpre2

theorem ppa_value_general (o : Obj) (p : String) (c : Config)
    (items : List Val) (hs : (p == "start") = false)
    (hl : lookupF o p = some (.vArr items)) (hne : items.isEmpty = false) :
    lookupF (processPropertyArrays o p c) p =
      some (.vArr (procItems c items)) := by
  rw [processPropertyArrays, if_neg (by rw [hs]; simp), processGeneral,
    ensureArray_of_arr o p items hl, hl]
  simp only [hne, Bool.false_eq_true, if_false]
  exact lookupF_setF_self o p _

/-- The screen element of `deepFlow`, as parsed. -/
def deepScreen : Val :=
  Val.vObj [("fields", Val.vArr [Val.vObj
    [("name", Val.vStr "f1"),
     ("fields", Val.vArr [Val.vObj
       [("name", Val.vStr "f2"),
        ("fields", Val.vStr "deep")]])]])]

/-- The schema entry for `screens`. -/
def screensCfg : Config :=
  .mk ["fields", "actions", "rules", "triggers"]
    [ ("rules", .mk ["conditions", "ruleActions"] [] none),
      ("triggers", .mk ["handlers"] [] none),
      ("fields", .mk
        ["fields", "choiceReferences", "inputParameters",
         "outputParameters", "dataTypeMappings"] [] (some "fields")) ]
    none

/-- The schema entry for a screen's `fields` (the recursive one). -/
def fieldsCfg : Config :=
  .mk ["fields", "choiceReferences", "inputParameters",
       "outputParameters", "dataTypeMappings"] [] (some "fields")

/-- The screen element after one pass of the engine: child arrays
forced, the depth-1 field processed, the depth-2 element untouched. -/
def procDeepScreen : Val := Val.vObj
  [("fields", Val.vArr [Val.vObj
     [("name", Val.vStr "f1"),
      ("fields", Val.vArr [Val.vObj [("name", Val.vStr "f2"), ("fields", Val.vStr "deep")]]),
      ("choiceReferences", Val.vArr []),
      ("inputParameters", Val.vArr []),
      ("outputParameters", Val.vArr []),
      ("dataTypeMappings", Val.vArr [])]]),
   ("actions", Val.vArr []),
   ("rules", Val.vArr []),
   ("triggers", Val.vArr [])]
/-- Evaluating the per-item processing of the deep screen. -/
theorem procItem_deepScreen : procItem screensCfg deepScreen = procDeepScreen := by
  simp only [screensCfg, deepScreen, procDeepScreen, procItem, procItems,
    processPropertyArrays, processGeneral, procNestedObj, ensureArray,
    lookupF, setF, truthy, truthyF, isArr, List.foldl, List.isEmpty,
    String.reduceBEq, reduceIte, Bool.false_eq_true, eq_self_iff_true,
    ite_true, ite_false, Bool.not_true, Bool.not_false,
    Bool.true_and, Bool.false_and, Bool.and_true, Bool.and_false]

/-- The `screens` value of the normalized deep flow: the single screen,
processed once. -/
theorem screens_value_of_deepFlow :
    lookupF (ensureArrayProperties deepFlow) "screens" =
      some (.vArr [procItem screensCfg deepScreen]) := by
  unfold ensureArrayProperties processNestedArrays
  have hpost0 : ∀ e ∈ (    [ ("recordLookups", .mk ["filters", "outputAssignments", "queriedFields"]
        [] none),
      ("recordCreates", .mk ["inputAssignments"] [] none),
      ("recordUpdates", .mk ["filters", "inputAssignments"] [] none),
      ("recordDeletes", .mk ["filters"] [] none),
      ("assignments", .mk ["assignmentItems"] [] none),
      ("actionCalls", .mk
        ["inputParameters", "outputParameters", "dataTypeMappings"] [] none),
      ("apexPluginCalls", .mk ["inputParameters", "outputParameters"] []
        none),
      ("subflows", .mk ["inputAssignments", "outputAssignments"] [] none),
      ("waits", .mk ["waitEvents"]
        [("waitEvents", .mk
           ["conditions", "filters", "inputParameters", "outputParameters"]
           [] none)] none),
      ("transforms", .mk ["transformValues"]
        [("transformValues", .mk ["transformValueActions"]
           [("transformValueActions", .mk ["inputParameters"] [] none)]
           none)] none),
      ("orchestratedStages", .mk
        ["stageSteps", "exitConditions", "exitActionInputParameters",
         "exitActionOutputParameters"]
        [("stageSteps", .mk
           ["assignees", "entryConditions", "exitConditions",
            "inputParameters", "outputParameters",
            "entryActionInputParameters", "entryActionOutputParameters",
            "exitActionInputParameters", "exitActionOutputParameters"]
           [] none)] none),
      ("start", .mk ["filters", "scheduledPaths", "capabilityTypes"]
        [("capabilityTypes", .mk ["inputs"] [] none)] none),
      ("dynamicChoiceSets", .mk ["filters", "outputAssignments"] [] none),
      ("collectionProcessors", .mk ["conditions", "mapItems", "sortOptions"]
        [] none),
      ("customErrors", .mk ["customErrorMessages"] [] none) ] : List (String × Config)), (e.1 == "screens") = false := by decide
  have hpre0 : ∀ e ∈ ([("decisions", Config.mk ["rules"]
      [("rules", Config.mk ["conditions"] [] none)] none)] : List (String × Config)), (e.1 == "screens") = false := by decide
  have hsplit := lookupF_procNestedObj_split "screens" screensCfg
    [ ("recordLookups", .mk ["filters", "outputAssignments", "queriedFields"]
        [] none),
      ("recordCreates", .mk ["inputAssignments"] [] none),
      ("recordUpdates", .mk ["filters", "inputAssignments"] [] none),
      ("recordDeletes", .mk ["filters"] [] none),
      ("assignments", .mk ["assignmentItems"] [] none),
      ("actionCalls", .mk
        ["inputParameters", "outputParameters", "dataTypeMappings"] [] none),
      ("apexPluginCalls", .mk ["inputParameters", "outputParameters"] []
        none),
      ("subflows", .mk ["inputAssignments", "outputAssignments"] [] none),
      ("waits", .mk ["waitEvents"]
        [("waitEvents", .mk
           ["conditions", "filters", "inputParameters", "outputParameters"]
           [] none)] none),
      ("transforms", .mk ["transformValues"]
        [("transformValues", .mk ["transformValueActions"]
           [("transformValueActions", .mk ["inputParameters"] [] none)]
           none)] none),
      ("orchestratedStages", .mk
        ["stageSteps", "exitConditions", "exitActionInputParameters",
         "exitActionOutputParameters"]
        [("stageSteps", .mk
           ["assignees", "entryConditions", "exitConditions",
            "inputParameters", "outputParameters",
            "entryActionInputParameters", "entryActionOutputParameters",
            "exitActionInputParameters", "exitActionOutputParameters"]
           [] none)] none),
      ("start", .mk ["filters", "scheduledPaths", "capabilityTypes"]
        [("capabilityTypes", .mk ["inputs"] [] none)] none),
      ("dynamicChoiceSets", .mk ["filters", "outputAssignments"] [] none),
      ("collectionProcessors", .mk ["conditions", "mapItems", "sortOptions"]
        [] none),
      ("customErrors", .mk ["customErrorMessages"] [] none) ]
    hpost0
    [("decisions", Config.mk ["rules"]
      [("rules", Config.mk ["conditions"] [] none)] none)]
    (FLOW_ARRAY_PROPERTIES.foldl ensureArray deepFlow)
    hpre0
  rw [show NESTED_ARRAY_CONFIG =
    [("decisions", Config.mk ["rules"]
      [("rules", Config.mk ["conditions"] [] none)] none)] ++
    ("screens", screensCfg) ::
    [ ("recordLookups", .mk ["filters", "outputAssignments", "queriedFields"]
        [] none),
      ("recordCreates", .mk ["inputAssignments"] [] none),
      ("recordUpdates", .mk ["filters", "inputAssignments"] [] none),
      ("recordDeletes", .mk ["filters"] [] none),
      ("assignments", .mk ["assignmentItems"] [] none),
      ("actionCalls", .mk
        ["inputParameters", "outputParameters", "dataTypeMappings"] [] none),
      ("apexPluginCalls", .mk ["inputParameters", "outputParameters"] []
        none),
      ("subflows", .mk ["inputAssignments", "outputAssignments"] [] none),
      ("waits", .mk ["waitEvents"]
        [("waitEvents", .mk
           ["conditions", "filters", "inputParameters", "outputParameters"]
           [] none)] none),
      ("transforms", .mk ["transformValues"]
        [("transformValues", .mk ["transformValueActions"]
           [("transformValueActions", .mk ["inputParameters"] [] none)]
           none)] none),
      ("orchestratedStages", .mk
        ["stageSteps", "exitConditions", "exitActionInputParameters",
         "exitActionOutputParameters"]
        [("stageSteps", .mk
           ["assignees", "entryConditions", "exitConditions",
            "inputParameters", "outputParameters",
            "entryActionInputParameters", "entryActionOutputParameters",
            "exitActionInputParameters", "exitActionOutputParameters"]
           [] none)] none),
      ("start", .mk ["filters", "scheduledPaths", "capabilityTypes"]
        [("capabilityTypes", .mk ["inputs"] [] none)] none),
      ("dynamicChoiceSets", .mk ["filters", "outputAssignments"] [] none),
      ("collectionProcessors", .mk ["conditions", "mapItems", "sortOptions"]
        [] none),
      ("customErrors", .mk ["customErrorMessages"] [] none) ]
    from rfl]
  rw [hsplit]
  have hscr : lookupF (FLOW_ARRAY_PROPERTIES.foldl ensureArray deepFlow)
      "screens" = some (.vArr [deepScreen]) :=
    foldl_ensureArray_pres_arr FLOW_ARRAY_PROPERTIES deepFlow "screens"
      [deepScreen] (by rfl)
  have hscr2 : lookupF (procNestedObj
      [("decisions", Config.mk ["rules"]
      [("rules", Config.mk ["conditions"] [] none)] none)]
      (FLOW_ARRAY_PROPERTIES.foldl ensureArray deepFlow)) "screens" =
      some (.vArr [deepScreen]) := by
    rw [frame_procNested "screens"
      [("decisions", Config.mk ["rules"]
      [("rules", Config.mk ["conditions"] [] none)] none)]
      (FLOW_ARRAY_PROPERTIES.foldl ensureArray deepFlow) (by decide)]
    exact hscr
  have hg : truthyF (procNestedObj
      [("decisions", Config.mk ["rules"]
      [("rules", Config.mk ["conditions"] [] none)] none)]
      (FLOW_ARRAY_PROPERTIES.foldl ensureArray deepFlow)) "screens" = true := by
    rw [truthyF_procNested "screens"
      [("decisions", Config.mk ["rules"]
      [("rules", Config.mk ["conditions"] [] none)] none)]
      (FLOW_ARRAY_PROPERTIES.foldl ensureArray deepFlow) (by decide)]
    unfold truthyF
    rw [hscr]
    rfl
  rw [if_pos hg]
  rw [ppa_value_general _ _ _ [deepScreen] (by decide) hscr2 (by rfl)]
  rw [procItems, procItems]

/-- C1 counterexample: the sequence invariant does not reach every
reachable element.  In `deepFlow` the depth-2 field element `f2` is
reachable through declared fields (`screens[0].fields[0].fields[0]`), its
Schema-Table-declared field `fields` carries the bare scalar `"deep"`,
and after `ensureArrayProperties` that field is still the bare scalar,
not a sequence. -/
theorem deep_reachable_field_not_sequence :
    depth2fields (ensureArrayProperties deepFlow) = some (Val.vStr "deep") ∧
      isArr (Val.vStr "deep") = false := by
  constructor
  · unfold depth2fields depth1fields screens0fields
    rw [screens_value_of_deepFlow, procItem_deepScreen]
    rfl
  · rfl

/-- C2 counterexample: the recursive marker does not reprocess nested
field groups.  In `deepFlow`, the element `f1` of the declared recursive
array `screens[0].fields` has a present, non-empty value at the recursive
field `fields`, yet after `ensureArrayProperties` that value's element
`f2` is returned verbatim — in particular its own `fields` group is still
the unprocessed scalar, so normalization does not reach depth 3. -/
theorem recursive_field_not_reprocessed :
    atIndex (depth1fields (ensureArrayProperties deepFlow)) 0 =
      some (Val.vObj [("name", Val.vStr "f2"), ("fields", Val.vStr "deep")]) := by
  unfold depth1fields screens0fields
  rw [screens_value_of_deepFlow, procItem_deepScreen]
  rfl

/-- C1 (amended): the sequence invariant `ensureArrayProperties` does
establish — every flat `FLOW_ARRAY_PROPERTIES` field of the result is an
array, and every `NESTED_ARRAY_CONFIG` entry is in normal form: each
truthy declared property is an array of items whose declared child
fields are arrays, recursively through `nestedConfig`.  The invariant
reaches exactly the depths spelled out by the table, not the unbounded
depth promised through the `recursive` marker. -/
theorem ensureArrayProperties_table_invariant (o : Obj) :
    FLOW_ARRAY_PROPERTIES.all (isArrF (ensureArrayProperties o)) = true ∧
      AllNormed NESTED_ARRAY_CONFIG (ensureArrayProperties o) = true := by
  constructor
  · apply List.all_eq_true.mpr
    intro p hp
    unfold ensureArrayProperties processNestedArrays
    exact pres_procNested p NESTED_ARRAY_CONFIG _
      (est_child_fold FLOW_ARRAY_PROPERTIES o p hp)
  · unfold ensureArrayProperties processNestedArrays
    exact est_allNormed NESTED_ARRAY_CONFIG wf_table _

/-- C2 (amended): the recursive-field branch of `processPropertyArrays`
is dead code.  It hands `processNestedArrays` the synthetic object
`{ fields: [...] }`, and `processNestedArrays` iterates only the
top-level keys of `NESTED_ARRAY_CONFIG`, none of which is `fields`: on a
single-key `fields` object every guard is false and the call returns its
input unchanged, whatever the nested value.  Recursive reprocessing
therefore never occurs. -/
theorem processNestedArrays_synthetic_fields (v : Val) :
    processNestedArrays [("fields", v)] = [("fields", v)] := by
  simp [processNestedArrays, NESTED_ARRAY_CONFIG, procNestedObj, truthyF, lookupF]

end SFFlow
